import Mathlib

/-!
Verification of the ASAR archive codec implemented in `math-with-slack.py`
(functions `roundup`, `_walk_fileinfos`, classes `AsarExtractor` and
`AsarPacker`).

Modelling conventions:
* Byte strings (file contents, archive bytes, path names) are `List Nat`;
  a `Name` is the byte string of a file name or of a relative path
  (the path separator `/` is byte 47, `.` is byte 46).
* The JSON header dictionary is the mutual inductive `FileTree`/`Entries`;
  entry order is the Python dict insertion order.
* SHA-256 (`hashlib`, standard library) is an abstract parameter
  `h : List Nat → List Nat` mapping bytes to their hex digest.
* `json.dumps(..., sort_keys=True, separators=(',',':'))` (standard
  library) is an abstract parameter `dumps : FileTree → List Nat`; the
  composition `json.loads ∘ json.dumps` returns the same dictionary with
  every object's keys in sorted order, modelled by `FileTree.sorted`.
* The platform test `sys.platform != 'win32'` is a parameter `win32 : Bool`.
* Python exceptions are `Except` errors.
-/

/-- A file name or relative path as its byte string. -/
abbrev Name := List Nat

/-- The byte string of the ASCII text `SHA256`. -/
def sha256Name : Name := [83, 72, 65, 50, 53, 54]

/-- Integrity dictionary produced by `AsarPacker.__get_file_integrity`
(keys `algorithm`, `hash`, `blockSize`, `blocks`); digests are byte
strings of hex text, via the abstract digest function. -/
structure IntegrityRecord where
  algorithm : Name
  hash : Name
  blockSize : Nat
  blocks : List Name
deriving DecidableEq

/-- A leaf dictionary of the header tree: key `size` is always present;
`offset` models the optional `offset` key (held as the number that the
decimal string `str(offset)` denotes); `unpacked` / `executable` model
presence of the optional keys `unpacked: True` / `executable: True`;
`integrity` models the optional `integrity` dictionary. -/
structure FileInfo where
  size : Nat
  offset : Option Nat
  unpacked : Bool
  executable : Bool
  integrity : Option IntegrityRecord
deriving DecidableEq

mutual
/-- A node of the JSON header tree: either a directory dictionary
`{'files': {...}}` or a file-info dictionary. -/
inductive FileTree where
  | dir (entries : Entries)
  | file (info : FileInfo)
deriving DecidableEq
/-- The ordered name → child mapping of a directory node (Python dict in
insertion order). -/
inductive Entries where
  | nil
  | cons (name : Name) (child : FileTree) (rest : Entries)
deriving DecidableEq
end

/-- The entries as a list of (name, child) pairs. -/
def Entries.toList : Entries → List (Name × FileTree)
  | .nil => []
  | .cons n c rest => (n, c) :: rest.toList

/-- Entries from a list of (name, child) pairs. -/
def Entries.ofList : List (Name × FileTree) → Entries
  | [] => .nil
  | (n, c) :: rest => .cons n c (Entries.ofList rest)

/-- Concatenation of two entry sequences. -/
def Entries.append : Entries → Entries → Entries
  | .nil, b => b
  | .cons n c rest, b => .cons n c (rest.append b)

/-- Models `os.path.join(root, name)` for a non-empty `root` that does not
end in a separator: `root + '/' + name`. -/
def pathJoin (root name : Name) : Name := root ++ 47 :: name

/-- The byte string of `.`, the default `root` of `_walk_fileinfos` and
the starting `path` of `AsarExtractor.extract`. -/
def dotName : Name := [46]

mutual
/-- Model of `_walk_fileinfos(fileinfos, root, ignore_unpacked)` restricted
to the entry dictionary `fileinfos['files']`: yields
`(os.path.join(root, name), fileinfo)` for every leaf in insertion order,
recursing into directories.  NOTE (faithful to the source, line 324): the
recursive call for a directory does not pass `ignore_unpacked` along, so
the flag only suppresses unpacked leaves at the top level. -/
def Entries.walk : Entries → Name → Bool → List (Name × FileInfo)
  | .nil, _, _ => []
  | .cons name child rest, root, ig =>
      FileTree.walkChild child (pathJoin root name) ig ++ Entries.walk rest root ig
/-- One loop iteration of `_walk_fileinfos`: a directory recurses (with
`ignore_unpacked` left at its default `False`), a leaf is skipped when
`ignore_unpacked and is_unpacked(fileinfo)`, otherwise yielded. -/
def FileTree.walkChild : FileTree → Name → Bool → List (Name × FileInfo)
  | .dir es, subPath, _ => Entries.walk es subPath false
  | .file fi, subPath, ig => if ig && fi.unpacked then [] else [(subPath, fi)]
end

/-- Model of `roundup(val, divisor)` from the source:
`int(math.ceil(float(val) / divisor) * divisor)`.  The source computes
through IEEE-754 doubles; every call site passes `val < 2^53` and
`divisor = 4`, where the double computation is exact, so the function is
modelled as the exact integer ceiling multiple.  The floating-point
route itself is modelled separately by `roundupFloat` below, and
`roundup_float_exact` proves the two agree exactly on `val < 2^53`. -/
def roundup (val divisor : Nat) : Nat := ((val + divisor - 1) / divisor) * divisor

/-- The four bytes of `struct.pack('<I', v)` (caller must have
`v < 2^32`, otherwise `struct.pack` raises `struct.error`). -/
def u32le (v : Nat) : List Nat := [v % 256, v / 256 % 256, v / 65536 % 256, v / 16777216 % 256]

/-- The number denoted by the first four bytes of `b` read as a
little-endian uint32, as `struct.unpack('<I', ...)` does. -/
def readU32 (b : List Nat) : Nat :=
  b.getD 0 0 + 256 * b.getD 1 0 + 65536 * b.getD 2 0 + 16777216 * b.getD 3 0

/-- Writing `data` into byte string `f` at position `pos` after a seek:
bytes before `pos` are kept (the file is zero-filled up to `pos` if it is
shorter), `data` overwrites from `pos`, the rest of `f` is kept. -/
def writeAt (f : List Nat) (pos : Nat) (data : List Nat) : List Nat :=
  f.take pos ++ List.replicate (pos - f.length) 0 ++ data ++ f.drop (pos + data.length)

/-- `AsarPacker.BLOCK_SIZE = 4 * 1024 * 1024`. -/
def BLOCK_SIZE : Nat := 4194304

/-- Fuel-driven splitting of a byte string into `BLOCK_SIZE` chunks
(the fuel is an upper bound on the number of reads; `chunks` supplies
`bs.length`, which suffices because each read consumes at least one
byte of a non-empty rest). -/
def chunksAux : Nat → List Nat → List (List Nat)
  | 0, _ => []
  | _, [] => []
  | fuel + 1, b :: bs => ((b :: bs).take BLOCK_SIZE) :: chunksAux fuel ((b :: bs).drop BLOCK_SIZE)

/-- The successive `f.read(BLOCK_SIZE)` results for a file with bytes
`bs` (the loop of `AsarPacker.__get_file_integrity`); empty for an empty
file. -/
def chunks (bs : List Nat) : List (List Nat) := chunksAux bs.length bs

/-- Model of `AsarPacker.__get_file_integrity` on a file whose bytes are
`content`: each block is hashed separately; the running whole-file hash
is updated with the blocks in order, which hashes exactly the
concatenation of the blocks, i.e. `content` itself. -/
def integrityOf (h : List Nat → Name) (content : List Nat) : IntegrityRecord :=
  { algorithm := sha256Name
    hash := h content
    blockSize := BLOCK_SIZE
    blocks := (chunks content).map h }

mutual
/-- Model of `AsarPacker.__add_file_integrities`: the walk
`_walk_fileinfos(fileinfos, ignore_unpacked=True)` yields leaves (the
recursion dropping `ignore_unpacked`, as in `Entries.walk`) and each
yielded leaf gets `fileinfo['integrity']` computed from the bytes that
`dsk` holds at the walked path. -/
def Entries.addIntegrity (h : List Nat → Name) (dsk : Name → List Nat) :
    Entries → Name → Bool → Entries
  | .nil, _, _ => .nil
  | .cons name child rest, root, ig =>
      .cons name (FileTree.addIntegrityChild h dsk child (pathJoin root name) ig)
        (Entries.addIntegrity h dsk rest root ig)
/-- Per-entry step of `Entries.addIntegrity`, mirroring `_walk_fileinfos`:
directories recurse with the flag reset to `False`, a leaf skipped by the
walk is unchanged, a yielded leaf gets its integrity record. -/
def FileTree.addIntegrityChild (h : List Nat → Name) (dsk : Name → List Nat) :
    FileTree → Name → Bool → FileTree
  | .dir es, subPath, _ => .dir (es.addIntegrity h dsk subPath false)
  | .file fi, subPath, ig =>
      if ig && fi.unpacked then .file fi
      else .file { fi with integrity := some (integrityOf h (dsk subPath)) }
end

/-- A regular file on disk: name, bytes, and whether
`os.stat(path).st_mode & 0o100` is set. -/
structure FSFile where
  name : Name
  content : List Nat
  executable : Bool
deriving DecidableEq

mutual
/-- A directory on disk: its regular files and subdirectories, each list
in the OS iteration order that `os.walk` reports. -/
inductive FSDir where
  | mk (files : List FSFile) (subdirs : FSubdirs)
deriving DecidableEq
/-- The named subdirectories of a directory, in iteration order. -/
inductive FSubdirs where
  | nil
  | cons (name : Name) (d : FSDir) (rest : FSubdirs)
deriving DecidableEq
end

/-- Models `os.path.relpath(os.path.join(root, name), directory)` where
`root` is `directory` itself (giving bare `name`) or the subdirectory at
relative path `pre` (giving `pre + '/' + name`). -/
def relPath (pre name : Name) : Name := if pre = [] then name else pre ++ 47 :: name

mutual
/-- The relative path, bytes and executable bit of every regular file
under a directory, in the `os.walk(topdown=True)` visit order: the
directory's own files first, then each subdirectory recursively. -/
def FSDir.filesRel : FSDir → List (Name × List Nat × Bool)
  | .mk files subs =>
      files.map (fun f => (f.name, f.content, f.executable)) ++ FSubdirs.filesRel subs
/-- The files of a subdirectory list, each path prefixed with its
subdirectory name. -/
def FSubdirs.filesRel : FSubdirs → List (Name × List Nat × Bool)
  | .nil => []
  | .cons n d rest =>
      (FSDir.filesRel d).map (fun e => (n ++ 47 :: e.1, e.2)) ++ FSubdirs.filesRel rest
end

/-- Models OS path resolution of a path relative to the packed directory:
a leading `./` (as produced by `os.path.join('.', ...)`) names the same
file as the bare relative path. -/
def normRel (p : Name) : Name :=
  match p with
  | 46 :: 47 :: q => q
  | _ => p

/-- Models `open(os.path.join(directory, path), 'rb').read()` against the
unchanged source directory `d`: the bytes of the file at the resolved
relative path (a missing path would raise `IOError`; every path the codec
reads comes from walking `d`'s own tree, where it is present). -/
def FSDir.read (d : FSDir) (p : Name) : List Nat :=
  match d.filesRel.find? (fun e => e.1 == normRel p) with
  | some e => e.2.1
  | none => []

/-- One file of `AsarPacker.__dir_to_fileinfos`'s inner loop: if the
relative path is in `unpackeds`, the fileinfo is
`{'size': ..., 'unpacked': True}` and the running offset is unchanged;
otherwise `{'size': ..., 'offset': str(offset)}` and the offset advances
by the size; `executable` is set when the platform is not win32 and the
mode bit is set. -/
def fileToInfo (win32 : Bool) (unp : List Name) (pre : Name) (off : Nat) (f : FSFile) :
    FileInfo × Nat :=
  if relPath pre f.name ∈ unp then
    ({ size := f.content.length, offset := none, unpacked := true,
       executable := !win32 && f.executable, integrity := none }, off)
  else
    ({ size := f.content.length, offset := some off, unpacked := false,
       executable := !win32 && f.executable, integrity := none }, off + f.content.length)

/-- The file entries a directory contributes, in iteration order,
threading the running offset. -/
def filesToEntries (win32 : Bool) (unp : List Name) (pre : Name) :
    List FSFile → Nat → Entries × Nat
  | [], off => (.nil, off)
  | f :: fs, off =>
      (.cons f.name (.file (fileToInfo win32 unp pre off f).1)
        (filesToEntries win32 unp pre fs (fileToInfo win32 unp pre off f).2).1,
       (filesToEntries win32 unp pre fs (fileToInfo win32 unp pre off f).2).2)

mutual
/-- Model of `AsarPacker.__dir_to_fileinfos` (without the integrity pass)
on the directory at relative path `pre`, starting at running offset
`off`: `os.walk` visits the directory itself first — inserting its file
entries, then its subdirectory placeholder entries — and then recurses
into each subdirectory in order, filling the placeholder; the resulting
dict therefore holds the files first and the subdirectories after them,
with offsets assigned in this same visit order. -/
def FSDir.toEntries (win32 : Bool) (unp : List Name) : FSDir → Name → Nat → Entries × Nat
  | .mk files subs, pre, off =>
      ((filesToEntries win32 unp pre files off).1.append
        (FSubdirs.toEntries win32 unp subs pre (filesToEntries win32 unp pre files off).2).1,
       (FSubdirs.toEntries win32 unp subs pre (filesToEntries win32 unp pre files off).2).2)
/-- The subdirectory entries of `FSDir.toEntries`, in iteration order. -/
def FSubdirs.toEntries (win32 : Bool) (unp : List Name) : FSubdirs → Name → Nat → Entries × Nat
  | .nil, _, off => (.nil, off)
  | .cons n d rest, pre, off =>
      (.cons n (.dir (FSDir.toEntries win32 unp d (relPath pre n) off).1)
        (FSubdirs.toEntries win32 unp rest pre (FSDir.toEntries win32 unp d (relPath pre n) off).2).1,
       (FSubdirs.toEntries win32 unp rest pre (FSDir.toEntries win32 unp d (relPath pre n) off).2).2)
end

/-- The header dictionary `AsarPacker.pack` builds:
`__dir_to_fileinfos(directory, unpackeds)['files']` — the raw tree from
the disk walk followed by `__add_file_integrities(directory, fileinfos)`,
whose walk starts at root `.` with `ignore_unpacked=True`. -/
def AsarPacker.packEntries (h : List Nat → Name) (win32 : Bool) (d : FSDir)
    (unp : List Name) : Entries :=
  Entries.addIntegrity h d.read ((FSDir.toEntries win32 unp d [] 0).1) dotName true

/-- Failures of `AsarPacker.pack`. -/
inductive PackError where
  /-- `struct.pack('<I', v)` with `v >= 2^32` raises `struct.error`. -/
  | structOverflow
  /-- `fileinfo['offset']` raises `KeyError` in the content-write loop for
  an unpacked leaf that `_walk_fileinfos(..., ignore_unpacked=True)`
  yielded anyway (a nested unpacked entry). -/
  | offsetKeyError
deriving DecidableEq

/-- Model of `AsarPacker.pack(directory, out_asar, unpackeds)`: builds the
header tree, serializes it, writes the 16-byte preamble, the padded JSON
bytes, then every walked file's bytes at `offset + baseoffset`, and
returns the container bytes together with the digest of the unpadded JSON
bytes.  A `KeyError` in the write loop aborts the pack (the source leaves
a partial output file behind; only the failure itself is modelled). -/
def AsarPacker.pack (h : List Nat → Name) (dumps : FileTree → List Nat) (win32 : Bool)
    (d : FSDir) (unp : List Name) : Except PackError (List Nat × Name) :=
  let fileinfos := AsarPacker.packEntries h win32 d unp
  let json_header_bytes := dumps (FileTree.dir fileinfos)
  let header_string_size := json_header_bytes.length
  let data_size := 4
  let aligned_size := roundup header_string_size data_size
  let header_size := aligned_size + 8
  let header_object_size := aligned_size + data_size
  if header_size < 4294967296 then
    let f0 := u32le data_size ++ u32le header_size ++ u32le header_object_size ++
      u32le header_string_size ++ json_header_bytes ++
      List.replicate (aligned_size - header_string_size) 0
    let baseoffset := roundup (header_string_size + 16) 4
    let ws := Entries.walk fileinfos dotName true
    if ws.all (fun e => e.2.offset.isSome) then
      .ok (ws.foldl (fun f e => writeAt f (e.2.offset.getD 0 + baseoffset) (d.read e.1)) f0,
        h json_header_bytes)
    else .error .offsetKeyError
  else .error .structOverflow

/-- Failures of `AsarExtractor.open`. -/
inductive OpenError where
  /-- `struct.unpack('<4I', f.read(16))` raises `struct.error` when the
  file holds fewer than 16 bytes. -/
  | truncated
  /-- A failed `assert` on the preamble fields, or a UTF-8/JSON decode
  error — the `MalformedHeader` taxonomy of the specification. -/
  | malformedHeader
deriving DecidableEq

/-- Model of `AsarExtractor.open(filename)` on a file whose bytes are
`b`, with `loads : List Nat → Option FileTree` modelling
`json.loads` after UTF-8 decoding (`none` on either decode error):
reads the four little-endian uint32 preamble fields, asserts
`header_data_size == 4` and `json_binary_size == json_data_size + 4`,
parses the next `json_string_size` bytes, and returns the tree together
with `baseoffset = roundup(16 + json_string_size, 4)`. -/
def AsarExtractor.openArchive (loads : List Nat → Option FileTree) (b : List Nat) :
    Except OpenError (FileTree × Nat) :=
  if b.length < 16 then .error .truncated
  else
    let header_data_size := readU32 b
    let json_binary_size := readU32 (b.drop 4)
    let json_data_size := readU32 (b.drop 8)
    let json_string_size := readU32 (b.drop 12)
    if header_data_size = 4 then
      if json_binary_size = json_data_size + 4 then
        match loads ((b.drop 16).take json_string_size) with
        | some files => .ok (files, roundup (16 + json_string_size) 4)
        | none => .error .malformedHeader
      else .error .malformedHeader
    else .error .malformedHeader

/-- `AsarExtractor.open` with the archive file-handle state made
explicit: `open(filename, 'rb')` acquires the handle, and the function
body contains no `close` call and no `try`/`finally`, so the handle is
still open on every exit — retained in the extractor on success, leaked
when a failed assert or a decode error propagates. -/
def AsarExtractor.openH (loads : List Nat → Option FileTree) (b : List Nat) :
    Except OpenError (FileTree × Nat) × Bool :=
  let handleOpen := true
  match AsarExtractor.openArchive loads b with
  | .error e => (.error e, handleOpen)
  | .ok v => (.ok v, handleOpen)

/-- Model of `AsarExtractor.__exit__` on the `asarfile` field
(`some ()` = an open handle, `none` = already closed/cleared): if the
field is falsy it returns, otherwise it closes the handle and sets the
field to `None`. -/
def AsarExtractor.onExit (asarfile : Option Unit) : Option Unit :=
  match asarfile with
  | none => none
  | some _ => none

/-- Failures of `AsarExtractor.extract`. -/
inductive ExtractError where
  /-- `OSError(20, 'Destination exists')` when the destination exists. -/
  | alreadyExists
  /-- `fileinfo['offset']` raises `KeyError` for a non-unpacked leaf
  without an offset. -/
  | offsetKeyError
  /-- `self.files['files']` raises `KeyError` when the parsed root is not
  a directory dictionary. -/
  | malformedTree
deriving DecidableEq

mutual
/-- Model of `AsarExtractor.__extract_directory(path, files, destination)`:
directory creation on disk is not tracked; the result lists, in traversal
order, every extracted file as (relative path, bytes written, executable
bit set).  `ar` is the archive bytes, `base` the extractor's
`baseoffset`, `unpDisk` the contents of the sibling
`<archive>.unpacked/` directory (`none` = directory or file missing,
which logs a warning and skips — recoverable). -/
def Entries.extractDir (unpDisk : Name → Option (List Nat)) (win32 : Bool)
    (ar : List Nat) (base : Nat) :
    Entries → Name → Except ExtractError (List (Name × List Nat × Bool))
  | .nil, _ => .ok []
  | .cons name child rest, path =>
      match FileTree.extractChild unpDisk win32 ar base child (pathJoin path name) with
      | .error e => .error e
      | .ok xs =>
          match Entries.extractDir unpDisk win32 ar base rest path with
          | .error e => .error e
          | .ok ys => .ok (xs ++ ys)
/-- One entry of `__extract_directory`'s loop: a directory recurses; an
unpacked leaf is copied from `unpDisk` via `shutil.copyfile` (contents
only — no executable bit) or skipped with a warning if missing;
otherwise `__extract_file` seeks to `int(offset) + baseoffset`, reads
`size` bytes, writes them, and sets the executable bit when the platform
is not win32 and `fileinfo.get('executable', False)`. -/
def FileTree.extractChild (unpDisk : Name → Option (List Nat)) (win32 : Bool)
    (ar : List Nat) (base : Nat) :
    FileTree → Name → Except ExtractError (List (Name × List Nat × Bool))
  | .dir es, itemPath => Entries.extractDir unpDisk win32 ar base es itemPath
  | .file fi, itemPath =>
      if fi.unpacked then
        match unpDisk itemPath with
        | none => .ok []
        | some c => .ok [(itemPath, c, false)]
      else
        match fi.offset with
        | none => .error .offsetKeyError
        | some o => .ok [(itemPath, (ar.drop (o + base)).take fi.size, !win32 && fi.executable)]
end

/-- Model of `AsarExtractor.extract(destination)`: raises
`OSError(20, 'Destination exists')` if `os.path.exists(destination)` —
before any directory or file is created — and otherwise extracts
`self.files['files']` starting at relative path `.`. -/
def AsarExtractor.extract (unpDisk : Name → Option (List Nat)) (win32 : Bool)
    (files : FileTree) (ar : List Nat) (base : Nat) (destExists : Bool) :
    Except ExtractError (List (Name × List Nat × Bool)) :=
  if destExists then .error .alreadyExists
  else
    match files with
    | .dir es => Entries.extractDir unpDisk win32 ar base es dotName
    | .file _ => .error .malformedTree

/-- Byte-wise lexicographic comparison of names — the order of Python's
`sort_keys=True` on the ASCII key strings of the header dictionaries. -/
def nameLe : Name → Name → Bool
  | [], _ => true
  | _ :: _, [] => false
  | a :: as, b :: bs => if a < b then true else if a = b then nameLe as bs else false

mutual
/-- Recursive key-sorting of a header tree, modelling
`json.loads(json.dumps(tree, sort_keys=True))`: the dumped text emits
every object's keys in sorted order and `json.loads` preserves that
textual order in the rebuilt dicts; values are unchanged. -/
def FileTree.sorted : FileTree → FileTree
  | .file fi => .file fi
  | .dir es =>
      .dir (Entries.ofList (List.insertionSort (fun a b => nameLe a.1 b.1 = true) es.mapSorted))
/-- The entries with every child recursively key-sorted, as a list ready
for sorting at this level. -/
def Entries.mapSorted : Entries → List (Name × FileTree)
  | .nil => []
  | .cons n c rest => (n, c.sorted) :: rest.mapSorted
end

/-- The names of a subdirectory list. -/
def FSubdirs.namesOf : FSubdirs → List Name
  | .nil => []
  | .cons n _ rest => n :: rest.namesOf

/-- No subdirectory name contains the separator byte. -/
def FSubdirs.namesNo47 : FSubdirs → Bool
  | .nil => true
  | .cons n _ rest => !n.contains 47 && rest.namesNo47

mutual
/-- Real directory trees as handed to the packer: file and subdirectory
names contain no `/` byte and all names within one directory are
pairwise distinct (the OS guarantees both). -/
def FSDir.wf : FSDir → Bool
  | .mk files subs =>
      files.all (fun f => !f.name.contains 47) && FSubdirs.namesNo47 subs &&
        (files.map FSFile.name ++ FSubdirs.namesOf subs).Nodup && FSubdirs.wfAll subs
/-- All subdirectories are themselves well-formed. -/
def FSubdirs.wfAll : FSubdirs → Bool
  | .nil => true
  | .cons _ d rest => d.wf && rest.wfAll
end

/-- The pack → open → extract pipeline on a source directory `d` with no
unpacked files and a fresh destination, on a non-win32 platform: pack the
directory, open the container that pack wrote (`loads` returns, for
exactly the dumped header bytes, the dumped dictionary with keys in
sorted order), and extract every file from it. -/
def roundTrip (h : List Nat → Name) (dumps : FileTree → List Nat) (d : FSDir) :
    Except Unit (List (Name × List Nat × Bool)) :=
  match AsarPacker.pack h dumps false d [] with
  | .error _ => .error ()
  | .ok (ar, _) =>
      let tree := FileTree.dir (AsarPacker.packEntries h false d [])
      let loads : List Nat → Option FileTree :=
        fun bs => if bs = dumps tree then some tree.sorted else none
      match AsarExtractor.openArchive loads ar with
      | .error _ => .error ()
      | .ok (files, baseoffset) =>
          match AsarExtractor.extract (fun _ => none) false files ar baseoffset false with
          | .error _ => .error ()
          | .ok out => .ok out

deriving instance DecidableEq for Except

/-- The offsets of a fileinfo list are contiguous from `off`: an unpacked
entry has no offset and leaves the running offset unchanged, any other
entry carries the running offset and advances it by its size. -/
def ContigFrom : Nat → List FileInfo → Prop
  | _, [] => True
  | off, fi :: rest =>
      if fi.unpacked then fi.offset = none ∧ ContigFrom off rest
      else fi.offset = some off ∧ ContigFrom (off + fi.size) rest

/-- The running offset after a fileinfo list: unpacked entries contribute
nothing, every other entry its size. -/
def endOff : Nat → List FileInfo → Nat
  | off, [] => off
  | off, fi :: rest => endOff (if fi.unpacked then off else off + fi.size) rest

/-- The fileinfo with its `integrity` key removed (the only key the
integrity pass can change). -/
def FileInfo.strip (fi : FileInfo) : FileInfo := { fi with integrity := none }

/-- A walked entry with its fileinfo stripped of `integrity`. -/
def stripEntry (e : Name × FileInfo) : Name × FileInfo := (e.1, e.2.strip)

/-- The walked form of a file list packed with no unpacked paths: entry
`i` is at `root`-joined path `pᵢ` with size `|cᵢ|`, offset the running
sum of the previous sizes, the platform-masked executable bit, and no
integrity; also returns the final running offset. -/
def annotate (win32 : Bool) (root : Name) :
    List (Name × List Nat × Bool) → Nat → List (Name × FileInfo) × Nat
  | [], off => ([], off)
  | (p, c, x) :: rest, off =>
      ((pathJoin root p,
          { size := c.length, offset := some off, unpacked := false,
            executable := !win32 && x, integrity := none }) ::
            (annotate win32 root rest (off + c.length)).1,
       (annotate win32 root rest (off + c.length)).2)

/-- A digest function for concrete examples (any value works — the
claims hold for every digest function). -/
def h0 : List Nat → Name := fun _ => []

/-- A serialization function for concrete examples returning the empty
byte string. -/
def dmp0 : FileTree → List Nat := fun _ => []

/-- A serialization function for concrete examples returning the twelve
bytes of the text `{"files":{}}` — the actual
`json.dumps({'files': {}}, sort_keys=True, separators=(',',':'))`
output for an empty directory. -/
def dmp12 : FileTree → List Nat := fun _ => [123,34,102,105,108,101,115,34,58,123,125,125]

/-- The scenario directory of the specification: a 2-byte file `a` and a
subdirectory `s` holding a 3-byte executable file `b`. -/
def fsW : FSDir := .mk [⟨[97], [104,105], false⟩] (.cons [115] (.mk [⟨[98], [1,2,3], true⟩] .nil) .nil)

/-- An empty source directory. -/
def fsEmpty : FSDir := .mk [] .nil

/-- A directory with two empty files `a` and `b`. -/
def fs5 : FSDir := .mk [⟨[97], [], false⟩, ⟨[98], [], false⟩] .nil

/-- A directory with a single file `b` (one byte) inside subdirectory `s`. -/
def fs3 : FSDir := .mk [] (.cons [115] (.mk [⟨[98], [7], false⟩] .nil) .nil)

/-- The unpacked-path set `{'s/b'}`. -/
def unp3 : List Name := [[115, 47, 98]]

/-- An unpacked leaf fileinfo (`{'size': 1, 'unpacked': True}`). -/
def uInfo : FileInfo :=
  { size := 1, offset := none, unpacked := true, executable := false, integrity := none }

/-- A header tree with the unpacked leaf `b` nested inside directory `s`. -/
def nestedTree : Entries := .cons [115] (.dir (.cons [98] (.file uInfo) .nil)) .nil

/-- A header tree with the unpacked leaf `b` at the top level. -/
def flatTree : Entries := .cons [98] (.file uInfo) .nil

/-- The integrity record that `__get_file_integrity` computes (with digest
function `h0`) for the one-byte file of `fs3`. -/
def intEx : IntegrityRecord :=
  { algorithm := sha256Name, hash := [], blockSize := BLOCK_SIZE, blocks := [[]] }

/-- The fileinfo that `AsarPacker` builds for the nested unpacked file of
`fs3`: unpacked, without offset, but with an integrity record. -/
def infoEx : FileInfo :=
  { size := 1, offset := none, unpacked := true, executable := false, integrity := some intEx }

/-- Sixteen NUL bytes: a syntactically complete preamble whose
`headerDataSize` field is 0, failing the first assert of
`AsarExtractor.open`. -/
def bad16 : List Nat := List.replicate 16 0

/-- A parse function for concrete examples: every byte string parses to
an empty directory tree. -/
def loadsDir : List Nat → Option FileTree := fun _ => some (FileTree.dir .nil)

/-- A sixteen-byte archive whose preamble is `(4, 8, 4, 0)` — a valid
header with an empty JSON text. -/
def bOk : List Nat := u32le 4 ++ u32le 8 ++ u32le 4 ++ u32le 0

/-- The container bytes `AsarPacker.pack` writes for `fsW` with digest
function `h0` and serialization `dmp0`: preamble `(4, 8, 4, 0)`, no JSON
bytes, then the two file contents at offsets 0 and 2 past the base. -/
def arWit : List Nat := [4,0,0,0, 8,0,0,0, 4,0,0,0, 0,0,0,0, 104,105,1,2,3]

/-- The unpadded JSON header bytes of a pack run. -/
def packJson (h : List Nat → Name) (dumps : FileTree → List Nat) (win32 : Bool)
    (d : FSDir) (unp : List Name) : List Nat :=
  dumps (FileTree.dir (AsarPacker.packEntries h win32 d unp))

/-- The NUL padding the header codec appends to a JSON text of length
`L`: `(4 - L % 4) % 4`. -/
def padOf (L : Nat) : Nat := (4 - L % 4) % 4

/-- The container bytes `AsarPacker.pack` writes for the empty directory
when the serialized header is the 12-byte text `{"files":{}}`: the
preamble fields are `(4, 20, 16, 12)`. -/
def arC1 : List Nat :=
  [4,0,0,0, 20,0,0,0, 16,0,0,0, 12,0,0,0, 123,34,102,105,108,101,115,34,58,123,125,125]

/-- A default fileinfo for out-of-range `getD` indexing (marked unpacked,
so no in-range hypothesis of the offset statements matches it). -/
def nInfo : FileInfo := { size := 0, offset := none, unpacked := true,
                          executable := false, integrity := none }

/-- The fileinfos of the header tree built by `pack`, in Tree-Walker
order (the full walk: `skipUnpacked = false`). -/
def packWalkInfos (h : List Nat → Name) (win32 : Bool) (d : FSDir)
    (unp : List Name) : List FileInfo :=
  (Entries.walk (AsarPacker.packEntries h win32 d unp) dotName false).map (fun e => e.2)

/-- Number of low-order bits an IEEE-754 binary64 significand cannot hold
when the value is the nonnegative integer `n`: the least `e` with
`n / 2 ^ e < 2 ^ 53` (0 when `n` already fits in the 53 significant bits).
The fuel argument bounds the halvings; `n` itself is always enough fuel. -/
def excessBitsAux : Nat → Nat → Nat
  | 0, _ => 0
  | fuel + 1, n => if n < 2 ^ 53 then 0 else excessBitsAux fuel (n / 2) + 1

def excessBits (n : Nat) : Nat := excessBitsAux n n

/-- Round a nonnegative integer to the nearest IEEE-754 binary64 value:
53 significant bits, round to nearest, ties to even.  Scaling by a power
of two (the exponent) is exact in binary floating point, so in the normal
range rounding acts on the integer significand alone: the value is rounded
to the nearest multiple of `2 ^ excessBits n`, ties going to the even
multiple.  All inputs that arise here are far below the binary64 overflow
threshold and subnormals never arise, so neither is modelled. -/
def roundSig (n : Nat) : Nat :=
  let e := excessBits n
  if e = 0 then n
  else
    let q := n / 2 ^ e
    let r := n % 2 ^ e
    let q2 := if 2 ^ (e - 1) < r ∨ (r = 2 ^ (e - 1) ∧ q % 2 = 1) then q + 1 else q
    q2 * 2 ^ e

/-- Python's `float(val)` on a nonnegative integer `val`: the nearest
binary64 value, itself an integer at these magnitudes, held exactly. -/
def pyFloat (val : Nat) : Nat := roundSig val

/-- The binary64 division `float(val) / 4` (the divisor 4 converts to the
exact double `4.0`).  The exact quotient is the dyadic rational
`pyFloat val * 2 ^ (-2)` — dividing by a power of two only shifts the
exponent — and IEEE division then rounds the quotient to nearest, which
touches only the significand: the quotient's value is
`fdiv4Num val * 2 ^ (-2)`.  The rounding is a no-op on a significand that
already fits 53 bits, but the model performs it faithfully. -/
def fdiv4Num (val : Nat) : Nat := roundSig (pyFloat val)

/-- `math.ceil` of the nonnegative dyadic rational `n * 2 ^ (-2)`:
Python's `math.ceil` on a float returns the exact integer ceiling. -/
def ceilQuarter (n : Nat) : Nat := (n + 3) / 4

/-- `roundup(val, 4)` computed the way lines 311-312 of the source compute
it, through binary64 floating point:
`int(math.ceil(float(val) / 4) * 4)`.  `math.ceil` already returns an
`int` in Python 3, so the trailing multiplication by the divisor and the
`int(...)` around it are exact integer arithmetic. -/
def roundupFloat (val : Nat) : Nat := ceilQuarter (fdiv4Num val) * 4

/-! ### Theorems -/

/-- The exact integer form of `roundup` at divisor 4. -/
theorem roundup_four (L : Nat) : roundup L 4 = L + padOf L := by
  unfold roundup padOf
  omega

/-- Rounding past the 16-byte preamble commutes with rounding the JSON
length alone. -/
theorem roundup_plus16 (L : Nat) : roundup (L + 16) 4 = 16 + (L + padOf L) := by
  unfold roundup padOf
  omega

/-- A seek-write does not shrink the file. -/
theorem writeAt_length (f : List Nat) (pos : Nat) (data : List Nat) :
    f.length ≤ (writeAt f pos data).length := by
  unfold writeAt
  simp only [List.length_append, List.length_take, List.length_replicate, List.length_drop]
  omega

/-- A seek-write at or past position `k` leaves the first `k` bytes of
the file unchanged. -/
theorem writeAt_take (f : List Nat) (pos : Nat) (data : List Nat) (k : Nat)
    (hk : k ≤ pos) (hfk : k ≤ f.length) : (writeAt f pos data).take k = f.take k := by
  unfold writeAt
  rw [List.append_assoc, List.append_assoc, List.take_append_of_le_length
    (by simp only [List.length_take]; omega), List.take_take, Nat.min_eq_left hk]

/-- Folding seek-writes whose positions are all at least `base` over a
file of length at least `base` never changes the first `base` bytes and
never shrinks the file below `base`. -/
theorem foldl_writeAt_take (dread : Name → List Nat) (base : Nat) :
    ∀ (l : List (Name × FileInfo)) (f : List Nat), base ≤ f.length →
      base ≤ (l.foldl (fun acc e => writeAt acc (e.2.offset.getD 0 + base) (dread e.1)) f).length ∧
      (l.foldl (fun acc e => writeAt acc (e.2.offset.getD 0 + base) (dread e.1)) f).take base =
        f.take base := by
  intro l
  induction l with
  | nil => exact fun f hf => ⟨hf, rfl⟩
  | cons e rest ih =>
    intro f hf
    have hw : base ≤ (writeAt f (e.2.offset.getD 0 + base) (dread e.1)).length :=
      le_trans hf (writeAt_length f (e.2.offset.getD 0 + base) (dread e.1))
    have ihh := ih (writeAt f (e.2.offset.getD 0 + base) (dread e.1)) hw
    refine ⟨ihh.1, ?_⟩
    rw [List.foldl_cons, ihh.2,
      writeAt_take f (e.2.offset.getD 0 + base) (dread e.1) base (Nat.le_add_left _ _) hf]

/-- C7: `AsarExtractor.extract` fails with `AlreadyExists` whenever the
destination exists; the check is the first statement of the method, so
the error carries no extracted output and no directory or file has been
created — in particular it never merges into an existing tree. -/
theorem extract_existing_destination_fails (unpDisk : Name → Option (List Nat))
    (win32 : Bool) (files : FileTree) (ar : List Nat) (base : Nat) :
    AsarExtractor.extract unpDisk win32 files ar base true = .error .alreadyExists := by
  rfl

/-- C9 (counterexample): on a 16-byte archive of NUL bytes the header
validation of `AsarExtractor.open` fails, and the archive file handle it
opened is NOT released when the error propagates — refuting the claim
that every operation releases its handle on error exit paths. -/
theorem openArchive_leaks_handle_on_error :
    (AsarExtractor.openH loadsDir bad16).1 = .error .malformedHeader ∧
    (AsarExtractor.openH loadsDir bad16).2 ≠ false := by
  decide

/-- C9 (amended): `AsarExtractor.open` acquires the archive handle and
releases it on no exit path — on success the handle is retained in the
extractor, on header-validation failure the error propagates with the
handle still open; the handle is released by `AsarExtractor.__exit__`,
which closes it (idempotently — a second call is a no-op). -/
theorem open_handle_never_released :
    (∀ loads b, (AsarExtractor.openH loads b).2 = true) ∧
    (∀ s, AsarExtractor.onExit (AsarExtractor.onExit s) = AsarExtractor.onExit s ∧
      AsarExtractor.onExit s = none) := by
  constructor
  · intro loads b
    unfold AsarExtractor.openH
    cases AsarExtractor.openArchive loads b <;> rfl
  · intro s
    cases s <;> exact ⟨rfl, rfl⟩

/-- C2 (bug): `_walk_fileinfos` with `ignore_unpacked=True` omits an
unpacked leaf at the top level, but yields the same unpacked leaf when it
sits inside a subdirectory, because the recursive call drops the flag —
refuting the claim that unpacked leaves are omitted at every depth. -/
theorem walk_nested_unpacked_not_skipped :
    Entries.walk flatTree dotName true = [] ∧
    Entries.walk nestedTree dotName true = [([46, 47, 115, 47, 98], uInfo)] := by
  decide

/-- C3 (bug): packing directory `fs3` with unpacked set `{'s/b'}` builds a
header tree whose nested unpacked entry is marked `unpacked` with no
offset but nevertheless carries an integrity record (the integrity walk
drops `ignore_unpacked` on recursion); the write loop of `pack` then hits
the missing `offset` key — refuting the claim that unpacked entries get
no integrity record. -/
theorem packEntries_nested_unpacked_gets_integrity :
    Entries.walk (AsarPacker.packEntries h0 false fs3 unp3) dotName false =
      [([46, 47, 115, 47, 98], infoEx)] ∧
    infoEx.unpacked = true ∧ infoEx.offset = none ∧ infoEx.integrity.isSome = true ∧
    AsarPacker.pack h0 dmp0 false fs3 unp3 = .error .offsetKeyError := by
  decide

/-- C4: `AsarExtractor.open` on an archive of at least 16 bytes reads the
four little-endian uint32 preamble fields and fails with
`MalformedHeader` exactly when `headerDataSize ≠ 4`, or
`jsonBinarySize ≠ jsonDataSize + 4`, or the next `jsonStringSize` bytes
do not parse as UTF-8 JSON; on success it returns the parsed tree
together with the body offset `roundup(16 + jsonStringSize, 4)`. -/
theorem openArchive_spec (loads : List Nat → Option FileTree) (b : List Nat)
    (hlen : 16 ≤ b.length) :
    (AsarExtractor.openArchive loads b = .error .malformedHeader ↔
      (readU32 b ≠ 4 ∨ readU32 (b.drop 4) ≠ readU32 (b.drop 8) + 4 ∨
        loads ((b.drop 16).take (readU32 (b.drop 12))) = none)) ∧
    (∀ t, readU32 b = 4 → readU32 (b.drop 4) = readU32 (b.drop 8) + 4 →
      loads ((b.drop 16).take (readU32 (b.drop 12))) = some t →
      AsarExtractor.openArchive loads b = .ok (t, roundup (16 + readU32 (b.drop 12)) 4)) := by
  have hnl : ¬ b.length < 16 := Nat.not_lt.mpr hlen
  constructor
  · unfold AsarExtractor.openArchive
    by_cases h1 : readU32 b = 4
    · by_cases h2 : readU32 (b.drop 4) = readU32 (b.drop 8) + 4
      · cases hl : loads ((b.drop 16).take (readU32 (b.drop 12))) with
        | none => simp [hnl, h1, h2, hl]
        | some t => simp [hnl, h1, h2, hl]
      · simp [hnl, h1, h2]
    · simp [hnl, h1]
  · intro t h1 h2 hl
    unfold AsarExtractor.openArchive
    simp [hnl, h1, h2, hl]

/-- C4 (witness): a concrete valid 16-byte archive with preamble
`(4, 8, 4, 0)` opens successfully with body offset 16. -/
theorem openArchive_spec_witness :
    AsarExtractor.openArchive loadsDir bOk = .ok (FileTree.dir .nil, 16) := by
  have h := (openArchive_spec loadsDir bOk (by decide)).2 (FileTree.dir .nil)
    (by decide) (by decide) (by decide)
  exact h.trans (by decide)

/-- C8: when `AsarPacker.pack` returns, the digest it returns is the
SHA-256 hex digest of the unpadded JSON header bytes, and any second run
on the same directory tree (same contents and iteration order — the same
`FSDir`) returns byte-identical container bytes, hence byte-identical
header JSON, and the identical digest. -/
theorem pack_digest (h : List Nat → Name) (dumps : FileTree → List Nat) (win32 : Bool)
    (d : FSDir) (unp : List Name) (ar : List Nat) (dg : Name)
    (hpk : AsarPacker.pack h dumps win32 d unp = .ok (ar, dg)) :
    dg = h (dumps (FileTree.dir (AsarPacker.packEntries h win32 d unp))) ∧
    (∀ ar2 dg2, AsarPacker.pack h dumps win32 d unp = .ok (ar2, dg2) →
      ar2 = ar ∧ dg2 = dg) := by
  constructor
  · by_cases h1 :
      roundup (dumps (FileTree.dir (AsarPacker.packEntries h win32 d unp))).length 4 + 8 <
        4294967296
    · by_cases h2 :
        (Entries.walk (AsarPacker.packEntries h win32 d unp) dotName true).all
          (fun e => e.2.offset.isSome) = true
      · simp only [AsarPacker.pack, h1, h2, if_true, Except.ok.injEq, Prod.mk.injEq] at hpk
        exact hpk.2.symm
      · simp [AsarPacker.pack, h1, h2] at hpk
    · simp [AsarPacker.pack, h1] at hpk
  · intro ar2 dg2 hpk2
    have heq := hpk.symm.trans hpk2
    rw [Except.ok.injEq, Prod.mk.injEq] at heq
    exact ⟨heq.1.symm, heq.2.symm⟩

/-- C8 (witness): packing the scenario directory `fsW` returns the
digest of the dumped header bytes. -/
theorem pack_digest_witness :
    AsarPacker.pack h0 dmp0 false fsW [] = .ok (arWit, []) ∧
    ([] : Name) = h0 (dmp0 (FileTree.dir (AsarPacker.packEntries h0 false fsW []))) :=
  ⟨by decide, (pack_digest h0 dmp0 false fsW [] arWit [] (by decide)).1⟩

/-- C1 (amended): when `AsarPacker.pack` succeeds, the container starts
with a 16-byte little-endian preamble whose fields are `headerDataSize = 4`,
`jsonBinarySize = jsonStringSize + padding + 8`,
`jsonDataSize = jsonStringSize + padding + 4` (NOT
`jsonStringSize + padding`: the field also counts the 4-byte string-size
slot, so `jsonBinarySize = jsonDataSize + 4` still holds), and
`jsonStringSize` the byte length of the serialized JSON text, followed by
the JSON bytes padded with exactly `padding = (4 - jsonStringSize % 4) % 4`
NUL bytes, where `0 ≤ padding < 4` and `jsonStringSize + padding` is a
multiple of 4. -/
theorem pack_header_layout (h : List Nat → Name) (dumps : FileTree → List Nat)
    (win32 : Bool) (d : FSDir) (unp : List Name) (ar : List Nat) (dg : Name)
    (hpk : AsarPacker.pack h dumps win32 d unp = .ok (ar, dg)) :
    ar.take (16 + ((packJson h dumps win32 d unp).length +
        padOf (packJson h dumps win32 d unp).length)) =
      u32le 4 ++
      u32le ((packJson h dumps win32 d unp).length +
        padOf (packJson h dumps win32 d unp).length + 8) ++
      u32le ((packJson h dumps win32 d unp).length +
        padOf (packJson h dumps win32 d unp).length + 4) ++
      u32le (packJson h dumps win32 d unp).length ++
      packJson h dumps win32 d unp ++
      List.replicate (padOf (packJson h dumps win32 d unp).length) 0 ∧
    padOf (packJson h dumps win32 d unp).length < 4 ∧
    ((packJson h dumps win32 d unp).length +
      padOf (packJson h dumps win32 d unp).length) % 4 = 0 := by
  refine ⟨?_, by unfold padOf; omega, by unfold padOf; omega⟩
  by_cases h1 :
    roundup (dumps (FileTree.dir (AsarPacker.packEntries h win32 d unp))).length 4 + 8 <
      4294967296
  · by_cases h2 :
      (Entries.walk (AsarPacker.packEntries h win32 d unp) dotName true).all
        (fun e => e.2.offset.isSome) = true
    · simp only [AsarPacker.pack, h1, h2, if_true, Except.ok.injEq, Prod.mk.injEq] at hpk
      obtain ⟨har, -⟩ := hpk
      rw [← har]
      simp only [packJson]
      set J := dumps (FileTree.dir (AsarPacker.packEntries h win32 d unp)) with hJ
      set L := J.length with hL
      set pad := padOf L with hpadd
      have halign : roundup L 4 = L + pad := roundup_four L
      have hbase : roundup (L + 16) 4 = 16 + (L + pad) := roundup_plus16 L
      set f0 := u32le 4 ++ u32le (roundup L 4 + 8) ++ u32le (roundup L 4 + 4) ++ u32le L ++
        J ++ List.replicate (roundup L 4 - L) 0 with hf0
      have hf0len : f0.length = 16 + (L + pad) := by
        rw [hf0]
        simp only [List.length_append, u32le, List.length_cons, List.length_nil,
          List.length_replicate, halign]
        omega
      have hfold := foldl_writeAt_take (d.read) (roundup (L + 16) 4)
        (Entries.walk (AsarPacker.packEntries h win32 d unp) dotName true) f0
        (by rw [hbase, hf0len])
      rw [← hbase, hfold.2, hbase, ← hf0len, List.take_length, hf0]
      have hsub : roundup L 4 - L = pad := by omega
      rw [hsub, halign]
    · simp [AsarPacker.pack, h1, h2] at hpk
  · simp [AsarPacker.pack, h1] at hpk

/-- C1 (witness): packing the empty directory with the real 12-byte
serialized header `{"files":{}}` produces the preamble `(4, 20, 16, 12)`
followed by the JSON bytes with no padding. -/
theorem pack_header_layout_witness :
    AsarPacker.pack h0 dmp12 false fsEmpty [] = .ok (arC1, []) ∧
    arC1.take (16 + ((packJson h0 dmp12 false fsEmpty []).length +
        padOf (packJson h0 dmp12 false fsEmpty []).length)) =
      u32le 4 ++
      u32le ((packJson h0 dmp12 false fsEmpty []).length +
        padOf (packJson h0 dmp12 false fsEmpty []).length + 8) ++
      u32le ((packJson h0 dmp12 false fsEmpty []).length +
        padOf (packJson h0 dmp12 false fsEmpty []).length + 4) ++
      u32le (packJson h0 dmp12 false fsEmpty []).length ++
      packJson h0 dmp12 false fsEmpty [] ++
      List.replicate (padOf (packJson h0 dmp12 false fsEmpty []).length) 0 :=
  ⟨by decide,
    (pack_header_layout h0 dmp12 false fsEmpty [] arC1 [] (by decide)).1⟩

/-- C1 (counterexample): for the empty directory the serialized header
text has length 12 with padding 0, yet the third preamble field
(`jsonDataSize`) that `pack` writes is 16, not `12 + 0` — refuting
`jsonDataSize = jsonStringSize + padding` as claimed. -/
theorem pack_header_fields_counterexample :
    AsarPacker.pack h0 dmp12 false fsEmpty [] = .ok (arC1, []) ∧
    (packJson h0 dmp12 false fsEmpty []).length = 12 ∧
    readU32 (arC1.drop 8) = 16 ∧ (16 : Nat) ≠ 12 + padOf 12 := by
  decide

/-- Walking a concatenation of entry sequences concatenates the walks. -/
theorem Entries.walk_append (a b : Entries) (root : Name) (ig : Bool) :
    (a.append b).walk root ig = a.walk root ig ++ b.walk root ig := by
  cases a with
  | nil => simp [Entries.append, Entries.walk]
  | cons n c r =>
      simp [Entries.append, Entries.walk, Entries.walk_append r b root ig]

/-- The running offset of a concatenation. -/
theorem endOff_append (l1 l2 : List FileInfo) (off : Nat) :
    endOff off (l1 ++ l2) = endOff (endOff off l1) l2 := by
  induction l1 generalizing off with
  | nil => simp [endOff]
  | cons fi rest ih => simp [endOff, ih]

/-- Contiguity composes along concatenation at the running offset. -/
theorem ContigFrom_append (l1 l2 : List FileInfo) (off : Nat)
    (h1 : ContigFrom off l1) (h2 : ContigFrom (endOff off l1) l2) :
    ContigFrom off (l1 ++ l2) := by
  induction l1 generalizing off with
  | nil => simpa [endOff] using h2
  | cons fi rest ih =>
      cases hu : fi.unpacked with
      | false =>
          simp only [ContigFrom, hu, if_false, Bool.false_eq_true] at h1 ⊢
          simp only [endOff, hu, if_false, Bool.false_eq_true] at h2
          exact ⟨h1.1, ih _ h1.2 h2⟩
      | true =>
          simp only [ContigFrom, hu, if_true] at h1 ⊢
          simp only [endOff, hu, if_true] at h2
          exact ⟨h1.1, ih _ h1.2 h2⟩

/-- The file entries a directory contributes walk to a contiguous
fileinfo list starting at the running offset, for either value of the
skip flag, and the returned offset is the list's running offset. -/
theorem filesToEntries_contig (win32 : Bool) (unp : List Name) (pre : Name)
    (fs : List FSFile) (off : Nat) (root : Name) (ig : Bool) :
    ContigFrom off ((((filesToEntries win32 unp pre fs off).1).walk root ig).map (fun e => e.2)) ∧
    (filesToEntries win32 unp pre fs off).2 =
      endOff off ((((filesToEntries win32 unp pre fs off).1).walk root ig).map (fun e => e.2)) := by
  induction fs generalizing off with
  | nil => exact ⟨trivial, rfl⟩
  | cons f fs ih =>
      by_cases hm : relPath pre f.name ∈ unp
      · have hfi : fileToInfo win32 unp pre off f =
            ({ size := f.content.length, offset := none, unpacked := true,
               executable := !win32 && f.executable, integrity := none }, off) := by
          simp [fileToInfo, hm]
        have ihh := ih off
        cases ig with
        | true =>
            simp only [filesToEntries, hfi, Entries.walk, FileTree.walkChild]
            simpa [ContigFrom, endOff] using ihh
        | false =>
            simp only [filesToEntries, hfi, Entries.walk, FileTree.walkChild]
            simp only [Bool.false_and, Bool.false_eq_true, if_false, List.singleton_append,
              List.map_cons, ContigFrom, endOff, if_true]
            exact ⟨⟨by trivial, ihh.1⟩, ihh.2⟩
      · have hfi : fileToInfo win32 unp pre off f =
            ({ size := f.content.length, offset := some off, unpacked := false,
               executable := !win32 && f.executable, integrity := none },
             off + f.content.length) := by
          simp [fileToInfo, hm]
        have ihh := ih (off + f.content.length)
        simp only [filesToEntries, hfi, Entries.walk, FileTree.walkChild]
        simp only [Bool.and_false, Bool.false_eq_true, if_false, List.singleton_append,
          List.map_cons, ContigFrom, endOff, if_true]
        exact ⟨⟨by trivial, ihh.1⟩, ihh.2⟩

mutual
/-- The walk of a built directory tree is contiguous from the running
offset, for any walk root and either skip flag, and the builder's
returned offset is the walked list's running offset. -/
theorem FSDir.toEntries_contig (win32 : Bool) (unp : List Name) (d : FSDir) (pre : Name)
    (off : Nat) (root : Name) (ig : Bool) :
    ContigFrom off ((((FSDir.toEntries win32 unp d pre off).1).walk root ig).map (fun e => e.2)) ∧
    (FSDir.toEntries win32 unp d pre off).2 =
      endOff off ((((FSDir.toEntries win32 unp d pre off).1).walk root ig).map (fun e => e.2)) := by
  cases d with
  | mk files subs =>
      have hf := filesToEntries_contig win32 unp pre files off root ig
      have hs := FSubdirs.subdirsToEntries_contig win32 unp subs pre
        (filesToEntries win32 unp pre files off).2 root ig
      simp only [FSDir.toEntries, Entries.walk_append, List.map_append]
      constructor
      · exact ContigFrom_append _ _ _ hf.1 (by rw [← hf.2]; exact hs.1)
      · rw [endOff_append, ← hf.2, hs.2]
/-- As `FSDir.toEntries_contig`, for a subdirectory list. -/
theorem FSubdirs.subdirsToEntries_contig (win32 : Bool) (unp : List Name) (s : FSubdirs) (pre : Name)
    (off : Nat) (root : Name) (ig : Bool) :
    ContigFrom off ((((FSubdirs.toEntries win32 unp s pre off).1).walk root ig).map (fun e => e.2)) ∧
    (FSubdirs.toEntries win32 unp s pre off).2 =
      endOff off ((((FSubdirs.toEntries win32 unp s pre off).1).walk root ig).map (fun e => e.2)) := by
  cases s with
  | nil => exact ⟨trivial, rfl⟩
  | cons n d rest =>
      have hd := FSDir.toEntries_contig win32 unp d (relPath pre n) off (pathJoin root n) false
      have hr := FSubdirs.subdirsToEntries_contig win32 unp rest pre
        (FSDir.toEntries win32 unp d (relPath pre n) off).2 root ig
      simp only [FSubdirs.toEntries, Entries.walk, FileTree.walkChild, List.map_append]
      constructor
      · exact ContigFrom_append _ _ _ hd.1 (by rw [← hd.2]; exact hr.1)
      · rw [endOff_append, ← hd.2, hr.2]
end

/-- The head of a contiguous non-unpacked list carries the start offset. -/
theorem ContigFrom_head (l : List FileInfo) (off : Nat) (h : ContigFrom off l)
    (hl : 0 < l.length) (hu : (l.getD 0 nInfo).unpacked = false) :
    (l.getD 0 nInfo).offset = some off := by
  cases l with
  | nil => simp at hl
  | cons fi rest =>
      simp only [List.getD_cons_zero] at hu ⊢
      simp only [ContigFrom, hu, Bool.false_eq_true, if_false] at h
      exact h.1

/-- The tail of a contiguous list is contiguous from the advanced offset. -/
theorem ContigFrom_tail (l : List FileInfo) (fi : FileInfo) (off : Nat)
    (h : ContigFrom off (fi :: l)) :
    ContigFrom (if fi.unpacked then off else off + fi.size) l := by
  cases hu : fi.unpacked with
  | false =>
      simp only [ContigFrom, hu, Bool.false_eq_true, if_false] at h ⊢
      exact h.2
  | true =>
      simp only [ContigFrom, hu, if_true] at h ⊢
      exact h.2

/-- In a contiguous list every non-unpacked entry has an offset at least
the start offset. -/
theorem ContigFrom_lower (l : List FileInfo) : ∀ (off i : Nat), ContigFrom off l →
    i < l.length → (l.getD i nInfo).unpacked = false →
    ∃ o, (l.getD i nInfo).offset = some o ∧ off ≤ o := by
  induction l with
  | nil => intro off i _ hi; simp at hi
  | cons fi rest ih =>
      intro off i h hi hu
      cases i with
      | zero => exact ⟨off, ContigFrom_head _ _ h (by simp) hu, Nat.le_refl off⟩
      | succ i =>
          have ht := ContigFrom_tail rest fi off h
          simp only [List.getD_cons_succ] at hu ⊢
          cases hfu : fi.unpacked with
          | false =>
              rw [hfu] at ht
              simp only [Bool.false_eq_true, if_false] at ht
              obtain ⟨o, ho, hle⟩ := ih (off + fi.size) i ht (by simpa using hi) hu
              exact ⟨o, ho, Nat.le_trans (Nat.le_add_right _ _) hle⟩
          | true =>
              rw [hfu] at ht
              simp only [if_true] at ht
              exact ih off i ht (by simpa using hi) hu

/-- Adjacent non-unpacked entries of a contiguous list have contiguous
offsets. -/
theorem ContigFrom_adj (l : List FileInfo) : ∀ (off i : Nat), ContigFrom off l →
    i + 1 < l.length → (l.getD i nInfo).unpacked = false →
    (l.getD (i + 1) nInfo).unpacked = false →
    ∃ o, (l.getD i nInfo).offset = some o ∧
      (l.getD (i + 1) nInfo).offset = some (o + (l.getD i nInfo).size) := by
  induction l with
  | nil => intro off i _ hi; simp at hi
  | cons fi rest ih =>
      intro off i h hi hu hu2
      cases i with
      | zero =>
          simp only [List.getD_cons_zero, List.getD_cons_succ] at hu hu2 ⊢
          simp only [ContigFrom, hu, Bool.false_eq_true, if_false] at h
          exact ⟨off, h.1, ContigFrom_head rest (off + fi.size) h.2 (by simpa using hi) hu2⟩
      | succ i =>
          have ht := ContigFrom_tail rest fi off h
          simp only [List.getD_cons_succ] at hu hu2 ⊢
          exact ih _ i ht (by simpa using hi) hu hu2

/-- The first non-unpacked entry of a contiguous list carries the start
offset. -/
theorem ContigFrom_first (l : List FileInfo) : ∀ (off i : Nat), ContigFrom off l →
    i < l.length → (∀ j, j < i → (l.getD j nInfo).unpacked = true) →
    (l.getD i nInfo).unpacked = false → (l.getD i nInfo).offset = some off := by
  induction l with
  | nil => intro off i _ hi; simp at hi
  | cons fi rest ih =>
      intro off i h hi hbefore hu
      cases i with
      | zero => exact ContigFrom_head _ _ h (by simp) hu
      | succ i =>
          have hfu : fi.unpacked = true := by simpa using hbefore 0 (Nat.succ_pos i)
          have ht := ContigFrom_tail rest fi off h
          rw [hfu] at ht
          simp only [if_true] at ht
          simp only [List.getD_cons_succ] at hu ⊢
          exact ih off i ht (by simpa using hi)
            (fun j hj => by simpa using hbefore (j + 1) (by omega)) hu

/-- Offsets of non-unpacked entries grow along a contiguous list by at
least the sizes in between. -/
theorem ContigFrom_mono (l : List FileInfo) : ∀ (off i j : Nat), ContigFrom off l →
    i < j → j < l.length → (l.getD i nInfo).unpacked = false →
    (l.getD j nInfo).unpacked = false →
    ∃ oi oj, (l.getD i nInfo).offset = some oi ∧ (l.getD j nInfo).offset = some oj ∧
      oi + (l.getD i nInfo).size ≤ oj := by
  induction l with
  | nil => intro off i j _ _ hj; simp at hj
  | cons fi rest ih =>
      intro off i j h hij hj hui huj
      cases i with
      | zero =>
          obtain ⟨j', rfl⟩ : ∃ j', j = j' + 1 := ⟨j - 1, by omega⟩
          simp only [List.getD_cons_zero, List.getD_cons_succ] at hui huj ⊢
          simp only [ContigFrom, hui, Bool.false_eq_true, if_false] at h
          obtain ⟨oj, hoj, hle⟩ := ContigFrom_lower rest _ j' h.2 (by simpa using hj) huj
          exact ⟨off, oj, h.1, hoj, hle⟩
      | succ i =>
          obtain ⟨j', rfl⟩ : ∃ j', j = j' + 1 := ⟨j - 1, by omega⟩
          have ht := ContigFrom_tail rest fi off h
          simp only [List.getD_cons_succ] at hui huj ⊢
          exact ih _ i j' ht (by omega) (by simpa using hj) hui huj

mutual
/-- The integrity pass changes only the `integrity` keys: the walked
entries, stripped of integrity, are unchanged (for every combination of
the pass's root/flag and the walk's root/flag). -/
theorem Entries.addIntegrity_walk_strip (h : List Nat → Name) (dsk : Name → List Nat)
    (es : Entries) (rI : Name) (iI : Bool) (root : Name) (ig : Bool) :
    ((es.addIntegrity h dsk rI iI).walk root ig).map stripEntry =
      (es.walk root ig).map stripEntry := by
  cases es with
  | nil => rfl
  | cons n c r =>
      simp only [Entries.addIntegrity, Entries.walk, List.map_append]
      rw [FileTree.addIntegrityChild_walk_strip h dsk c (pathJoin rI n) iI (pathJoin root n) ig,
        Entries.addIntegrity_walk_strip h dsk r rI iI root ig]
/-- As `Entries.addIntegrity_walk_strip`, for a single child. -/
theorem FileTree.addIntegrityChild_walk_strip (h : List Nat → Name) (dsk : Name → List Nat)
    (t : FileTree) (pI : Name) (iI : Bool) (path : Name) (ig : Bool) :
    ((FileTree.addIntegrityChild h dsk t pI iI).walkChild path ig).map stripEntry =
      (t.walkChild path ig).map stripEntry := by
  cases t with
  | dir es =>
      simp only [FileTree.addIntegrityChild, FileTree.walkChild]
      exact Entries.addIntegrity_walk_strip h dsk es pI false path false
  | file fi =>
      cases hsk : iI && fi.unpacked with
      | true => simp [FileTree.addIntegrityChild, hsk]
      | false =>
          simp only [FileTree.addIntegrityChild, hsk, Bool.false_eq_true, if_false,
            FileTree.walkChild]
          cases hw : ig && fi.unpacked with
          | true => simp [hw]
          | false => simp [hw, stripEntry, FileInfo.strip]
end

/-- Stripping integrity changes no offset, size or unpacked flag, so
contiguity is invariant under it. -/
theorem ContigFrom_strip (l : List FileInfo) : ∀ off,
    ContigFrom off (l.map FileInfo.strip) ↔ ContigFrom off l := by
  induction l with
  | nil => intro off; rfl
  | cons fi rest ih =>
      intro off
      cases hu : fi.unpacked with
      | false =>
          simp only [List.map_cons, ContigFrom, FileInfo.strip, hu, Bool.false_eq_true,
            if_false, ih]
      | true =>
          simp only [List.map_cons, ContigFrom, FileInfo.strip, hu, if_true, ih]

/-- The fileinfos that `pack`'s header tree walks to are those of the
raw disk walk with only integrity keys changed. -/
theorem packWalkInfos_strip (h : List Nat → Name) (win32 : Bool) (d : FSDir)
    (unp : List Name) (root : Name) (ig : Bool) :
    ((Entries.walk (AsarPacker.packEntries h win32 d unp) root ig).map (fun e => e.2)).map
        FileInfo.strip =
      ((Entries.walk ((FSDir.toEntries win32 unp d [] 0).1) root ig).map (fun e => e.2)).map
        FileInfo.strip := by
  have hs := Entries.addIntegrity_walk_strip h (d.read) ((FSDir.toEntries win32 unp d [] 0).1)
    dotName true root ig
  have hh := congrArg (List.map (fun e : Name × FileInfo => e.2)) hs
  simp only [List.map_map] at hh ⊢
  exact hh

/-- The fileinfos of `pack`'s header tree, in Tree-Walker order, are
contiguous from offset 0. -/
theorem packWalkInfos_contig (h : List Nat → Name) (win32 : Bool) (d : FSDir)
    (unp : List Name) :
    ContigFrom 0 (packWalkInfos h win32 d unp) := by
  have hraw := (FSDir.toEntries_contig win32 unp d [] 0 dotName false).1
  rw [packWalkInfos, ← ContigFrom_strip, packWalkInfos_strip h win32 d unp dotName false,
    ContigFrom_strip]
  exact hraw

/-- C5 (amended): in the header tree that `pack` builds, along Tree-Walker
order, (1) adjacent entries that are both non-unpacked have contiguous
offsets (`offsetᵢ + sizeᵢ = offsetᵢ₊₁`), (2) the first non-unpacked entry
has offset 0, and (3) offsets of non-unpacked entries are nondecreasing —
strictly increasing whenever the earlier entry has nonzero size, but NOT
strictly increasing in general, since a zero-size file advances no
offset. -/
theorem pack_offsets_contiguous (h : List Nat → Name) (win32 : Bool) (d : FSDir)
    (unp : List Name) :
    (∀ i, i + 1 < (packWalkInfos h win32 d unp).length →
        ((packWalkInfos h win32 d unp).getD i nInfo).unpacked = false →
        ((packWalkInfos h win32 d unp).getD (i + 1) nInfo).unpacked = false →
        ∃ o, ((packWalkInfos h win32 d unp).getD i nInfo).offset = some o ∧
          ((packWalkInfos h win32 d unp).getD (i + 1) nInfo).offset =
            some (o + ((packWalkInfos h win32 d unp).getD i nInfo).size)) ∧
    (∀ i, i < (packWalkInfos h win32 d unp).length →
        (∀ j, j < i → ((packWalkInfos h win32 d unp).getD j nInfo).unpacked = true) →
        ((packWalkInfos h win32 d unp).getD i nInfo).unpacked = false →
        ((packWalkInfos h win32 d unp).getD i nInfo).offset = some 0) ∧
    (∀ i j, i < j → j < (packWalkInfos h win32 d unp).length →
        ((packWalkInfos h win32 d unp).getD i nInfo).unpacked = false →
        ((packWalkInfos h win32 d unp).getD j nInfo).unpacked = false →
        ∃ oi oj, ((packWalkInfos h win32 d unp).getD i nInfo).offset = some oi ∧
          ((packWalkInfos h win32 d unp).getD j nInfo).offset = some oj ∧
          oi ≤ oj ∧ (0 < ((packWalkInfos h win32 d unp).getD i nInfo).size → oi < oj)) := by
  have hc := packWalkInfos_contig h win32 d unp
  refine ⟨fun i hi hu hu2 => ContigFrom_adj _ 0 i hc hi hu hu2,
    fun i hi hb hu => ContigFrom_first _ 0 i hc hi hb hu,
    fun i j hij hj hui huj => ?_⟩
  obtain ⟨oi, oj, hoi, hoj, hle⟩ := ContigFrom_mono _ 0 i j hc hij hj hui huj
  exact ⟨oi, oj, hoi, hoj, by omega, by omega⟩

/-- C5 (witness): in the scenario directory the two walked entries are
contiguous: the second offset is the first plus the first size. -/
theorem pack_offsets_contiguous_witness :
    ∃ o, ((packWalkInfos h0 false fsW []).getD 0 nInfo).offset = some o ∧
      ((packWalkInfos h0 false fsW []).getD 1 nInfo).offset =
        some (o + ((packWalkInfos h0 false fsW []).getD 0 nInfo).size) :=
  (pack_offsets_contiguous h0 false fsW []).1 0 (by decide) (by decide) (by decide)

/-- C5 (counterexample): packing a directory with two empty files gives
two adjacent non-unpacked entries whose offsets are both 0 — offsets in
Tree-Walker order are NOT strictly increasing as claimed. -/
theorem pack_offsets_strict_counterexample :
    (packWalkInfos h0 false fs5 []).map FileInfo.unpacked = [false, false] ∧
    (packWalkInfos h0 false fs5 []).map FileInfo.offset = [some 0, some 0] ∧
    ¬ (∀ oi oj : Nat, ((packWalkInfos h0 false fs5 []).getD 0 nInfo).offset = some oi →
        ((packWalkInfos h0 false fs5 []).getD 1 nInfo).offset = some oj → oi < oj) := by
  refine ⟨by decide, by decide, fun hall => ?_⟩
  exact absurd (hall 0 0 (by decide) (by decide)) (by decide)

/-- A uint32 field round-trips through its four little-endian bytes. -/
theorem readU32_u32le (v : Nat) (r : List Nat) (hv : v < 4294967296) :
    readU32 (u32le v ++ r) = v := by
  simp only [readU32, u32le, List.cons_append, List.nil_append, List.getD_cons_zero,
    List.getD_cons_succ]
  omega

/-- Dropping a four-byte field. -/
theorem drop4_u32le (v : Nat) (r : List Nat) : (u32le v ++ r).drop 4 = r := by
  simp [u32le]

/-- A seek-write at the end of the file appends. -/
theorem writeAt_append (f data : List Nat) : writeAt f f.length data = f ++ data := by
  unfold writeAt
  rw [List.take_length, Nat.sub_self, List.replicate_zero,
    List.drop_eq_nil_of_le (Nat.le_add_right _ _)]
  simp

/-- Splitting an annotation at a concatenation. -/
theorem annotate_append (win32 : Bool) (root : Name) (l1 l2 : List (Name × List Nat × Bool)) :
    ∀ off, annotate win32 root (l1 ++ l2) off =
      ((annotate win32 root l1 off).1 ++
        (annotate win32 root l2 (annotate win32 root l1 off).2).1,
       (annotate win32 root l2 (annotate win32 root l1 off).2).2) := by
  induction l1 with
  | nil => intro off; simp [annotate]
  | cons e rest ih =>
      intro off
      obtain ⟨p, c, x⟩ := e
      simp [annotate, ih]

/-- Prefixing every relative path by a subdirectory name moves the walk
root down by that name. -/
theorem annotate_shift (win32 : Bool) (root s : Name) (l : List (Name × List Nat × Bool)) :
    ∀ off, annotate win32 root (l.map (fun e => (s ++ 47 :: e.1, e.2))) off =
      annotate win32 (pathJoin root s) l off := by
  induction l with
  | nil => intro off; rfl
  | cons e rest ih =>
      intro off
      obtain ⟨p, c, x⟩ := e
      simp only [List.map_cons, annotate, ih, pathJoin, List.append_assoc, List.cons_append]

/-- Every annotated entry is non-unpacked and carries an offset. -/
theorem annotate_allPacked (win32 : Bool) (root : Name) (l : List (Name × List Nat × Bool)) :
    ∀ off, ∀ a ∈ (annotate win32 root l off).1,
      a.2.unpacked = false ∧ a.2.offset.isSome = true := by
  induction l with
  | nil => intro off a ha; simp [annotate] at ha
  | cons e rest ih =>
      intro off a ha
      obtain ⟨p, c, x⟩ := e
      simp only [annotate, List.mem_cons] at ha
      cases ha with
      | inl h => rw [h]; exact ⟨rfl, rfl⟩
      | inr h => exact ih _ a h

/-- Annotated entries carry no integrity record, so stripping is the
identity on them. -/
theorem annotate_strip (win32 : Bool) (root : Name) (l : List (Name × List Nat × Bool)) :
    ∀ off, ((annotate win32 root l off).1).map stripEntry = (annotate win32 root l off).1 := by
  induction l with
  | nil => intro off; rfl
  | cons e rest ih =>
      intro off
      obtain ⟨p, c, x⟩ := e
      simp only [annotate, List.map_cons, ih, stripEntry, FileInfo.strip]

/-- With no unpacked paths, the file entries of one directory walk to
exactly their annotation: paths joined under the walk root, sizes the
content lengths, offsets the running sums, executable bits masked by the
platform — for either skip flag, and the builder's returned offset is
the annotation's. -/
theorem filesToEntries_walk_annotate (win32 : Bool) (pre : Name) (fs : List FSFile) :
    ∀ (off : Nat) (root : Name) (ig : Bool),
      Entries.walk (filesToEntries win32 [] pre fs off).1 root ig =
        (annotate win32 root (fs.map (fun f => (f.name, f.content, f.executable))) off).1 ∧
      (filesToEntries win32 [] pre fs off).2 =
        (annotate win32 root (fs.map (fun f => (f.name, f.content, f.executable))) off).2 := by
  induction fs with
  | nil => intro off root ig; exact ⟨rfl, rfl⟩
  | cons f fs ih =>
      intro off root ig
      have hfi : fileToInfo win32 [] pre off f =
          ({ size := f.content.length, offset := some off, unpacked := false,
             executable := !win32 && f.executable, integrity := none },
           off + f.content.length) := by
        simp [fileToInfo]
      have ihh := ih (off + f.content.length) root ig
      simp only [filesToEntries, hfi, Entries.walk, FileTree.walkChild, List.map_cons, annotate,
        Bool.and_false, Bool.false_eq_true, if_false, List.singleton_append]
      exact ⟨by rw [ihh.1], by rw [ihh.2]⟩

mutual
/-- With no unpacked paths, a built directory tree walks to the
annotation of the directory's file list, for any walk root and either
skip flag. -/
theorem FSDir.toEntries_walk_annotate (win32 : Bool) (d : FSDir) :
    ∀ (pre : Name) (off : Nat) (root : Name) (ig : Bool),
      Entries.walk (FSDir.toEntries win32 [] d pre off).1 root ig =
        (annotate win32 root d.filesRel off).1 ∧
      (FSDir.toEntries win32 [] d pre off).2 = (annotate win32 root d.filesRel off).2 := by
  cases d with
  | mk files subs =>
      intro pre off root ig
      have hf := filesToEntries_walk_annotate win32 pre files off root ig
      have hs := FSubdirs.subdirsToEntries_walk_annotate win32 subs pre
        (filesToEntries win32 [] pre files off).2 root ig
      simp only [FSDir.toEntries, Entries.walk_append, FSDir.filesRel,
        annotate_append]
      constructor
      · rw [hf.1, hs.1, hf.2]
      · rw [hs.2, hf.2]
/-- As `FSDir.toEntries_walk_annotate`, for a subdirectory list. -/
theorem FSubdirs.subdirsToEntries_walk_annotate (win32 : Bool) (s : FSubdirs) :
    ∀ (pre : Name) (off : Nat) (root : Name) (ig : Bool),
      Entries.walk (FSubdirs.toEntries win32 [] s pre off).1 root ig =
        (annotate win32 root s.filesRel off).1 ∧
      (FSubdirs.toEntries win32 [] s pre off).2 = (annotate win32 root s.filesRel off).2 := by
  cases s with
  | nil => intro pre off root ig; exact ⟨rfl, rfl⟩
  | cons n d rest =>
      intro pre off root ig
      have hd := FSDir.toEntries_walk_annotate win32 d (relPath pre n) off (pathJoin root n) false
      have hr := FSubdirs.subdirsToEntries_walk_annotate win32 rest pre
        (FSDir.toEntries win32 [] d (relPath pre n) off).2 root ig
      simp only [FSubdirs.toEntries, Entries.walk, FileTree.walkChild, FSubdirs.filesRel,
        annotate_append, annotate_shift]
      constructor
      · rw [hd.1, hr.1, hd.2]
      · rw [hr.2, hd.2]
end

/-- Two walked lists equal after stripping integrity are equal under any
map that ignores integrity. -/
theorem map_strip_invariant {β : Type} (F : Name × FileInfo → β)
    (hF : ∀ e, F (stripEntry e) = F e) (l1 l2 : List (Name × FileInfo))
    (hs : l1.map stripEntry = l2.map stripEntry) : l1.map F = l2.map F := by
  have h1 : l1.map F = (l1.map stripEntry).map F := by
    rw [List.map_map]
    exact (List.map_congr_left (fun a _ => hF a)).symm
  rw [h1, hs, List.map_map]
  exact List.map_congr_left (fun a _ => hF a)

/-- With no unpacked paths, `pack`'s header tree walks (for any root and
either skip flag) to the annotation of the source directory's file list,
up to the integrity keys. -/
theorem packEntries_walk_annotate (h : List Nat → Name) (win32 : Bool) (d : FSDir)
    (root : Name) (ig : Bool) :
    (Entries.walk (AsarPacker.packEntries h win32 d []) root ig).map stripEntry =
      (annotate win32 root d.filesRel 0).1 := by
  have hs := Entries.addIntegrity_walk_strip h (d.read) ((FSDir.toEntries win32 [] d [] 0).1)
    dotName true root ig
  simp only [AsarPacker.packEntries]
  rw [hs, (FSDir.toEntries_walk_annotate win32 d [] 0 root ig).1,
    annotate_strip win32 root d.filesRel 0]

/-- With no unpacked paths every walked entry of `pack`'s header tree is
non-unpacked and carries an offset. -/
theorem packEntries_walk_good (h : List Nat → Name) (win32 : Bool) (d : FSDir)
    (root : Name) (ig : Bool) :
    ∀ e ∈ Entries.walk (AsarPacker.packEntries h win32 d []) root ig,
      e.2.unpacked = false ∧ e.2.offset.isSome = true := by
  intro e he
  have hmem : stripEntry e ∈ (annotate win32 root d.filesRel 0).1 := by
    rw [← packEntries_walk_annotate h win32 d root ig]
    exact List.mem_map_of_mem _ he
  exact annotate_allPacked win32 root d.filesRel 0 (stripEntry e) hmem

mutual
/-- When every walked leaf is non-unpacked and carries an offset,
extraction succeeds and writes, for each walked leaf in order, the
`size` bytes of the archive at `offset + baseoffset`, with the
platform-masked executable bit. -/
theorem Entries.extractDir_eq (unpD : Name → Option (List Nat)) (win32 : Bool)
    (ar : List Nat) (base : Nat) (es : Entries) (path : Name)
    (hgood : ∀ e ∈ es.walk path false, e.2.unpacked = false ∧ e.2.offset.isSome = true) :
    Entries.extractDir unpD win32 ar base es path =
      .ok ((es.walk path false).map (fun e =>
        (e.1, (ar.drop (e.2.offset.getD 0 + base)).take e.2.size, !win32 && e.2.executable))) := by
  cases es with
  | nil => rfl
  | cons n c r =>
      have hgc : ∀ e ∈ FileTree.walkChild c (pathJoin path n) false,
          e.2.unpacked = false ∧ e.2.offset.isSome = true := by
        intro e he
        exact hgood e (by simp only [Entries.walk, List.mem_append]; exact Or.inl he)
      have hgr : ∀ e ∈ Entries.walk r path false,
          e.2.unpacked = false ∧ e.2.offset.isSome = true := by
        intro e he
        exact hgood e (by simp only [Entries.walk, List.mem_append]; exact Or.inr he)
      have hc := FileTree.extractChild_eq unpD win32 ar base c (pathJoin path n) hgc
      have hr := Entries.extractDir_eq unpD win32 ar base r path hgr
      simp only [Entries.extractDir, hc, hr, Entries.walk, List.map_append]
/-- As `Entries.extractDir_eq`, for a single child. -/
theorem FileTree.extractChild_eq (unpD : Name → Option (List Nat)) (win32 : Bool)
    (ar : List Nat) (base : Nat) (t : FileTree) (path : Name)
    (hgood : ∀ e ∈ t.walkChild path false, e.2.unpacked = false ∧ e.2.offset.isSome = true) :
    FileTree.extractChild unpD win32 ar base t path =
      .ok ((t.walkChild path false).map (fun e =>
        (e.1, (ar.drop (e.2.offset.getD 0 + base)).take e.2.size, !win32 && e.2.executable))) := by
  cases t with
  | dir es =>
      simp only [FileTree.walkChild] at hgood ⊢
      exact Entries.extractDir_eq unpD win32 ar base es path hgood
  | file fi =>
      have hg := hgood (path, fi) (by simp [FileTree.walkChild])
      obtain ⟨o, ho⟩ := Option.isSome_iff_exists.mp hg.2
      have hg1 : fi.unpacked = false := hg.1
      have ho1 : fi.offset = some o := ho
      simp [FileTree.extractChild, FileTree.walkChild, hg1, ho1]
end

/-- Walking entries rebuilt from a list flat-maps the per-child walk over
the list. -/
theorem Entries.walk_ofList (L : List (Name × FileTree)) (root : Name) (ig : Bool) :
    (Entries.ofList L).walk root ig =
      L.flatMap (fun nc => FileTree.walkChild nc.2 (pathJoin root nc.1) ig) := by
  induction L with
  | nil => rfl
  | cons nc rest ih =>
      obtain ⟨n, c⟩ := nc
      simp [Entries.ofList, Entries.walk, ih]

mutual
/-- Key-sorting a subtree permutes its walk (the same leaves in a
possibly different order). -/
theorem FileTree.walkChild_sorted_perm (t : FileTree) (path : Name) (ig : Bool) :
    List.Perm ((t.sorted).walkChild path ig) (t.walkChild path ig) := by
  cases t with
  | file fi => exact List.Perm.refl _
  | dir es =>
      simp only [FileTree.sorted, FileTree.walkChild, Entries.walk_ofList]
      exact ((List.perm_insertionSort _ es.mapSorted).flatMap_right _).trans
        (Entries.mapSorted_walk_perm es path)
/-- The flat-mapped walk of the child-sorted entry list permutes the walk
of the original entries. -/
theorem Entries.mapSorted_walk_perm (es : Entries) (path : Name) :
    List.Perm
      (es.mapSorted.flatMap (fun nc => FileTree.walkChild nc.2 (pathJoin path nc.1) false))
      (es.walk path false) := by
  cases es with
  | nil => exact List.Perm.refl _
  | cons n c r =>
      simp only [Entries.mapSorted, List.flatMap_cons, Entries.walk]
      exact (FileTree.walkChild_sorted_perm c (pathJoin path n) false).append
        (Entries.mapSorted_walk_perm r path)
end

/-- A path `s ++ 47 :: q` with separator-free `s` determines `s` and `q`. -/
theorem sep_path_inj (s : Name) : ∀ (s' q q' : Name), 47 ∉ s → 47 ∉ s' →
    s ++ 47 :: q = s' ++ 47 :: q' → s = s' ∧ q = q' := by
  induction s with
  | nil =>
      intro s' q q' _ hs' heq
      cases s' with
      | nil => simpa using heq
      | cons b s'' =>
          simp only [List.nil_append, List.cons_append, List.cons.injEq] at heq
          obtain ⟨hb, -⟩ := heq
          subst hb
          exact absurd (List.mem_cons_self _ _) hs'
  | cons a s ih =>
      intro s' q q' hs hs' heq
      cases s' with
      | nil =>
          simp only [List.cons_append, List.nil_append, List.cons.injEq] at heq
          obtain ⟨hb, -⟩ := heq
          subst hb
          exact absurd (List.mem_cons_self _ _) hs
      | cons b s'' =>
          simp only [List.cons_append, List.cons.injEq] at heq
          obtain ⟨rfl, heq2⟩ := heq
          have hs2 : 47 ∉ s := fun hm => hs (List.mem_cons_of_mem _ hm)
          have hs2' : 47 ∉ s'' := fun hm => hs' (List.mem_cons_of_mem _ hm)
          obtain ⟨h1, h2⟩ := ih s'' q q' hs2 hs2' heq2
          exact ⟨by rw [h1], h2⟩

/-- Separator-freeness of every subdirectory name. -/
theorem namesNo47_mem (s : FSubdirs) (hno : s.namesNo47 = true) :
    ∀ m ∈ s.namesOf, 47 ∉ m := by
  cases s with
  | nil => intro m hm; simp [FSubdirs.namesOf] at hm
  | cons n d rest =>
      simp only [FSubdirs.namesNo47, Bool.and_eq_true, Bool.not_eq_true'] at hno
      intro m hm
      rcases List.mem_cons.mp hm with h | h
      · subst h
        intro hmem
        have helem := List.elem_eq_true_of_mem hmem
        simp only [List.contains] at hno
        rw [hno.1] at helem
        exact Bool.noConfusion helem
      · exact namesNo47_mem rest hno.2 m h

/-- Separator-freeness of every file name checked by `all`. -/
theorem filesNo47_mem (files : List FSFile)
    (hall : files.all (fun f => !f.name.contains 47) = true) :
    ∀ f ∈ files, 47 ∉ f.name := by
  intro f hf hmem
  have h1 := List.all_eq_true.mp hall f hf
  have helem := List.elem_eq_true_of_mem hmem
  simp only [Bool.not_eq_true', List.contains] at h1
  rw [h1] at helem
  exact Bool.noConfusion helem

mutual
/-- In a well-formed directory tree all relative file paths are pairwise
distinct. -/
theorem FSDir.filesRel_paths_nodup (d : FSDir) (hwf : d.wf = true) :
    ((d.filesRel).map (fun e => e.1)).Nodup := by
  cases d with
  | mk files subs =>
      simp only [FSDir.wf, Bool.and_eq_true, decide_eq_true_eq] at hwf
      obtain ⟨⟨⟨hall, hno⟩, hnd⟩, hwall⟩ := hwf
      have hsub := FSubdirs.subdirsFilesRel_paths_nodup subs hno hnd.of_append_right hwall
      have hfuse : ((FSDir.mk files subs).filesRel).map (fun e => e.1) =
          files.map (fun f => f.name) ++ (FSubdirs.filesRel subs).map (fun e => e.1) := by
        simp [FSDir.filesRel, List.map_append, List.map_map, Function.comp]
      rw [hfuse]
      refine List.Nodup.append ?_ hsub.1 ?_
      · have := hnd.of_append_left
        simpa [FSFile.name] using this
      · intro p hp hp2
        obtain ⟨n, q, hpe, -⟩ := hsub.2 p hp2
        simp only [List.mem_map] at hp
        obtain ⟨f, hf, hfe⟩ := hp
        have hno47 := filesNo47_mem files hall f hf
        apply hno47
        rw [hfe, hpe]
        exact List.mem_append.mpr (Or.inr (List.mem_cons_self _ _))
/-- In a well-formed subdirectory list all relative file paths are
pairwise distinct, and each starts with a subdirectory name followed by
the separator. -/
theorem FSubdirs.subdirsFilesRel_paths_nodup (s : FSubdirs) (hno : s.namesNo47 = true)
    (hnd : s.namesOf.Nodup) (hwall : s.wfAll = true) :
    ((s.filesRel).map (fun e => e.1)).Nodup ∧
    (∀ p ∈ (s.filesRel).map (fun e => e.1), ∃ n q, p = n ++ 47 :: q ∧ n ∈ s.namesOf) := by
  cases s with
  | nil => exact ⟨List.nodup_nil, by simp [FSubdirs.filesRel]⟩
  | cons n d rest =>
      have hn47 : 47 ∉ n := namesNo47_mem (FSubdirs.cons n d rest) hno n
        (List.mem_cons_self _ _)
      simp only [FSubdirs.namesNo47, Bool.and_eq_true] at hno
      simp only [FSubdirs.wfAll, Bool.and_eq_true] at hwall
      simp only [FSubdirs.namesOf, List.nodup_cons] at hnd
      have hd := FSDir.filesRel_paths_nodup d hwall.1
      have hr := FSubdirs.subdirsFilesRel_paths_nodup rest hno.2 hnd.2 hwall.2
      have hfuse : ((FSubdirs.cons n d rest).filesRel).map (fun e => e.1) =
          (d.filesRel).map (fun e => n ++ 47 :: e.1) ++
            (FSubdirs.filesRel rest).map (fun e => e.1) := by
        simp [FSubdirs.filesRel, List.map_append, List.map_map, Function.comp]
      rw [hfuse]
      constructor
      · refine List.Nodup.append ?_ hr.1 ?_
        · have hinj : Function.Injective (fun q : Name => n ++ 47 :: q) := by
            intro q q' hqq
            have := (List.append_right_inj n).mp hqq
            simpa using this
          have hblock := List.Nodup.map hinj hd
          rw [List.map_map] at hblock
          simpa [Function.comp] using hblock
        · intro p hp hp2
          obtain ⟨n', q', hpe, hn'⟩ := hr.2 p hp2
          simp only [List.mem_map] at hp
          obtain ⟨e, he, hpe2⟩ := hp
          have h47n' : 47 ∉ n' := namesNo47_mem rest hno.2 n' hn'
          have hpaths : n ++ 47 :: e.1 = n' ++ 47 :: q' := by rw [hpe2, hpe]
          obtain ⟨rfl, -⟩ := sep_path_inj n n' e.1 q' hn47 h47n' hpaths
          exact hnd.1 hn'
      · intro p hp
        rcases List.mem_append.mp hp with h | h
        · simp only [List.mem_map] at h
          obtain ⟨e, he, hpe⟩ := h
          exact ⟨n, e.1, hpe.symm, List.mem_cons_self _ _⟩
        · obtain ⟨n', q', hpe, hn'⟩ := hr.2 p h
          exact ⟨n', q', hpe, List.mem_cons_of_mem _ hn'⟩
end

/-- On an association list with distinct keys, `find?` by key returns the
member with that key. -/
theorem find?_fst_eq {β : Type} (l : List (Name × β)) (p : Name) (v : β)
    (hnd : (l.map (fun e => e.1)).Nodup) (hm : (p, v) ∈ l) :
    l.find? (fun e => e.1 == p) = some (p, v) := by
  induction l with
  | nil => simp at hm
  | cons e rest ih =>
      obtain ⟨q, w⟩ := e
      simp only [List.map_cons, List.nodup_cons] at hnd
      by_cases hqp : q = p
      · subst hqp
        rw [List.find?_cons_of_pos _ (by simp)]
        rcases List.mem_cons.mp hm with h | h
        · exact congrArg some h.symm
        · exact absurd (List.mem_map_of_mem (fun e => e.1) h) hnd.1
      · rw [List.find?_cons_of_neg _ (by simp [hqp])]
        apply ih hnd.2
        rcases List.mem_cons.mp hm with h | h
        · exact absurd (congrArg Prod.fst h).symm hqp
        · exact h

/-- Reading back a file of a well-formed source directory by its walked
path (`./`-prefixed relative path) returns that file's bytes. -/
theorem FSDir.read_eq (d : FSDir) (hwf : d.wf = true) (p : Name) (c : List Nat) (x : Bool)
    (hm : (p, c, x) ∈ d.filesRel) : d.read (pathJoin dotName p) = c := by
  have hnd := FSDir.filesRel_paths_nodup d hwf
  have hf := find?_fst_eq d.filesRel p (c, x) hnd hm
  have hnorm : normRel (pathJoin dotName p) = p := rfl
  simp only [FSDir.read, hnorm, hf]

/-- Folding the content writes of `pack` over the annotated walk appends
exactly the file contents in walk order: each write lands at the current
end of the file because the offsets are the running content sums. -/
theorem foldl_writeAt_body (dread : Name → List Nat) (win32 : Bool) (root : Name) (base : Nat) :
    ∀ (l : List (Name × List Nat × Bool)) (off : Nat) (f : List Nat),
      f.length = base + off →
      (∀ p c x, (p, c, x) ∈ l → dread (pathJoin root p) = c) →
      ((annotate win32 root l off).1).foldl
        (fun acc e => writeAt acc (e.2.offset.getD 0 + base) (dread e.1)) f =
      f ++ (l.map (fun e => e.2.1)).flatten := by
  intro l
  induction l with
  | nil => intro off f _ _; simp [annotate]
  | cons e rest ih =>
      intro off f hlen hread
      obtain ⟨p, c, x⟩ := e
      have hrd : dread (pathJoin root p) = c := hread p c x (List.mem_cons_self _ _)
      have hpos : off + base = f.length := by omega
      simp only [annotate, List.foldl_cons, List.map_cons, List.flatten_cons, Option.getD_some,
        hrd]
      rw [hpos, writeAt_append]
      have ihh := ih (off + c.length) (f ++ c)
        (by simp only [List.length_append]; omega)
        (fun p' c' x' hm => hread p' c' x' (List.mem_cons_of_mem _ hm))
      rw [ihh, List.append_assoc]

/-- When the archive holds, from position `base + off` on, the
concatenated contents of the annotated files (then anything), extracting
each annotated entry by seek-and-read returns exactly its content, with
the platform-masked executable bit. -/
theorem map_readSeg_annotate (ar : List Nat) (base : Nat) (win32 : Bool) (root : Name) :
    ∀ (l : List (Name × List Nat × Bool)) (off : Nat),
      (∃ tl, ar.drop (base + off) = (l.map (fun e => e.2.1)).flatten ++ tl) →
      ((annotate win32 root l off).1).map
        (fun e => (e.1, (ar.drop (e.2.offset.getD 0 + base)).take e.2.size,
          !win32 && e.2.executable)) =
      l.map (fun e => (pathJoin root e.1, e.2.1, !win32 && e.2.2)) := by
  intro l
  induction l with
  | nil => intro off _; rfl
  | cons e rest ih =>
      intro off hex
      obtain ⟨p, c, x⟩ := e
      obtain ⟨tl, hdrop⟩ := hex
      simp only [List.map_cons, List.flatten_cons, List.append_assoc] at hdrop
      have hc : (ar.drop (off + base)).take c.length = c := by
        rw [Nat.add_comm off base, hdrop]
        exact List.take_left c _
      have hrest : ar.drop (base + (off + c.length)) =
          ((rest.map (fun e => e.2.1)).flatten) ++ tl := by
        have h2 : ar.drop (base + (off + c.length)) = (ar.drop (base + off)).drop c.length := by
          rw [List.drop_drop, Nat.add_assoc]
        rw [h2, hdrop]
        exact List.drop_left c _
      have ihh := ih (off + c.length) ⟨tl, hrest⟩
      have hb : (!win32 && (!win32 && x)) = (!win32 && x) := by cases win32 <;> simp
      simp only [annotate, List.map_cons, Option.getD_some, ihh, hc, hb]

/-- A successful pack of a well-formed directory with no unpacked paths
writes the preamble, the padded JSON header, and then the concatenated
file contents in walk order. -/
theorem pack_ok_archive (h : List Nat → Name) (dumps : FileTree → List Nat) (d : FSDir)
    (ar : List Nat) (dg : Name) (hwf : d.wf = true)
    (hpk : AsarPacker.pack h dumps false d [] = .ok (ar, dg)) :
    ar = (u32le 4 ++ u32le (roundup (packJson h dumps false d []).length 4 + 8) ++
      u32le (roundup (packJson h dumps false d []).length 4 + 4) ++
      u32le (packJson h dumps false d []).length ++ packJson h dumps false d [] ++
      List.replicate (roundup (packJson h dumps false d []).length 4 -
        (packJson h dumps false d []).length) 0) ++
      (d.filesRel.map (fun e => e.2.1)).flatten := by
  by_cases h1 :
    roundup (dumps (FileTree.dir (AsarPacker.packEntries h false d []))).length 4 + 8 <
      4294967296
  · by_cases h2 :
      (Entries.walk (AsarPacker.packEntries h false d []) dotName true).all
        (fun e => e.2.offset.isSome) = true
    · simp only [AsarPacker.pack, h1, h2, if_true, Except.ok.injEq, Prod.mk.injEq] at hpk
      obtain ⟨har, -⟩ := hpk
      rw [← har]
      simp only [packJson]
      have hstrip := packEntries_walk_annotate h false d dotName true
      have hswap : ∀ (ll : List (Name × FileInfo)) (ff : List Nat),
          List.foldl (fun acc e => writeAt acc (e.2.offset.getD 0 +
            roundup ((dumps (FileTree.dir (AsarPacker.packEntries h false d []))).length + 16) 4)
            (d.read e.1)) ff ll =
          List.foldl (fun acc e => writeAt acc (e.2.offset.getD 0 +
            roundup ((dumps (FileTree.dir (AsarPacker.packEntries h false d []))).length + 16) 4)
            (d.read e.1)) ff (ll.map stripEntry) := by
        intro ll ff
        rw [List.foldl_map]
        rfl
      rw [hswap, hstrip]
      have hlen : (u32le 4 ++
          u32le (roundup (dumps (FileTree.dir (AsarPacker.packEntries h false d []))).length 4 + 8) ++
          u32le (roundup (dumps (FileTree.dir (AsarPacker.packEntries h false d []))).length 4 + 4) ++
          u32le (dumps (FileTree.dir (AsarPacker.packEntries h false d []))).length ++
          dumps (FileTree.dir (AsarPacker.packEntries h false d [])) ++
          List.replicate
            (roundup (dumps (FileTree.dir (AsarPacker.packEntries h false d []))).length 4 -
              (dumps (FileTree.dir (AsarPacker.packEntries h false d []))).length) 0).length =
          roundup ((dumps (FileTree.dir (AsarPacker.packEntries h false d []))).length + 16) 4 + 0 := by
        have hup := roundup_four (dumps (FileTree.dir (AsarPacker.packEntries h false d []))).length
        have hup16 := roundup_plus16 (dumps (FileTree.dir (AsarPacker.packEntries h false d []))).length
        simp only [List.length_append, u32le, List.length_cons, List.length_nil,
          List.length_replicate]
        omega
      exact foldl_writeAt_body (d.read) false dotName
        (roundup ((dumps (FileTree.dir (AsarPacker.packEntries h false d []))).length + 16) 4)
        d.filesRel 0 _ hlen
        (fun p c x hm => FSDir.read_eq d hwf p c x hm)
    · simp [AsarPacker.pack, h1, h2] at hpk
  · simp [AsarPacker.pack, h1] at hpk

/-- Opening a container laid out as preamble `(4, A+8, A+4, L)` followed
by the `L`-byte JSON text and anything else succeeds, parses exactly the
JSON bytes, and returns body offset `roundup(16 + L, 4)`. -/
theorem openArchive_of_layout (loads : List Nat → Option FileTree) (A L : Nat)
    (J R : List Nat) (hLJ : J.length = L) (hbound : A + 8 < 4294967296) (hLA : L ≤ A)
    (t : FileTree) (hl : loads J = some t) :
    AsarExtractor.openArchive loads
      (u32le 4 ++ (u32le (A + 8) ++ (u32le (A + 4) ++ (u32le L ++ (J ++ R))))) =
      .ok (t, roundup (16 + L) 4) := by
  have hlen : 16 ≤ (u32le 4 ++ (u32le (A + 8) ++ (u32le (A + 4) ++ (u32le L ++ (J ++ R))))).length := by
    simp [u32le]
  have hr0 : readU32 (u32le 4 ++ (u32le (A + 8) ++ (u32le (A + 4) ++ (u32le L ++ (J ++ R))))) = 4 :=
    readU32_u32le 4 _ (by omega)
  have hd4 : (u32le 4 ++ (u32le (A + 8) ++ (u32le (A + 4) ++ (u32le L ++ (J ++ R))))).drop 4 =
      u32le (A + 8) ++ (u32le (A + 4) ++ (u32le L ++ (J ++ R))) := drop4_u32le _ _
  have hd8 : (u32le 4 ++ (u32le (A + 8) ++ (u32le (A + 4) ++ (u32le L ++ (J ++ R))))).drop 8 =
      u32le (A + 4) ++ (u32le L ++ (J ++ R)) := by
    have : (u32le 4 ++ (u32le (A + 8) ++ (u32le (A + 4) ++ (u32le L ++ (J ++ R))))).drop 8 =
        ((u32le 4 ++ (u32le (A + 8) ++ (u32le (A + 4) ++ (u32le L ++ (J ++ R))))).drop 4).drop 4 := by
      rw [List.drop_drop]
    rw [this, hd4, drop4_u32le]
  have hd12 : (u32le 4 ++ (u32le (A + 8) ++ (u32le (A + 4) ++ (u32le L ++ (J ++ R))))).drop 12 =
      u32le L ++ (J ++ R) := by
    have : (u32le 4 ++ (u32le (A + 8) ++ (u32le (A + 4) ++ (u32le L ++ (J ++ R))))).drop 12 =
        ((u32le 4 ++ (u32le (A + 8) ++ (u32le (A + 4) ++ (u32le L ++ (J ++ R))))).drop 8).drop 4 := by
      rw [List.drop_drop]
    rw [this, hd8, drop4_u32le]
  have hd16 : (u32le 4 ++ (u32le (A + 8) ++ (u32le (A + 4) ++ (u32le L ++ (J ++ R))))).drop 16 =
      J ++ R := by
    have : (u32le 4 ++ (u32le (A + 8) ++ (u32le (A + 4) ++ (u32le L ++ (J ++ R))))).drop 16 =
        ((u32le 4 ++ (u32le (A + 8) ++ (u32le (A + 4) ++ (u32le L ++ (J ++ R))))).drop 12).drop 4 := by
      rw [List.drop_drop]
    rw [this, hd12, drop4_u32le]
  have hr4 : readU32 ((u32le 4 ++ (u32le (A + 8) ++ (u32le (A + 4) ++ (u32le L ++ (J ++ R))))).drop 4) =
      A + 8 := by rw [hd4]; exact readU32_u32le _ _ hbound
  have hr8 : readU32 ((u32le 4 ++ (u32le (A + 8) ++ (u32le (A + 4) ++ (u32le L ++ (J ++ R))))).drop 8) =
      A + 4 := by rw [hd8]; exact readU32_u32le _ _ (by omega)
  have hr12 : readU32 ((u32le 4 ++ (u32le (A + 8) ++ (u32le (A + 4) ++ (u32le L ++ (J ++ R))))).drop 12) =
      L := by rw [hd12]; exact readU32_u32le _ _ (by omega)
  have hload : loads (((u32le 4 ++ (u32le (A + 8) ++ (u32le (A + 4) ++ (u32le L ++ (J ++ R))))).drop 16).take
      (readU32 ((u32le 4 ++ (u32le (A + 8) ++ (u32le (A + 4) ++ (u32le L ++ (J ++ R))))).drop 12))) =
      some t := by
    rw [hr12, hd16, List.take_left' hLJ]
    exact hl
  have hres := (openArchive_spec loads _ hlen).2 t (by rw [hr0]) (by rw [hr4, hr8]) hload
  rw [hres, hr12]

/-- Opening the container that a successful pack wrote, with `json.loads`
returning the key-sorted dump, yields the sorted header tree and the body
offset `roundup(16 + jsonStringSize, 4)`. -/
theorem roundTrip_open_eval (h : List Nat → Name) (dumps : FileTree → List Nat) (d : FSDir)
    (ar : List Nat) (dg : Name) (hwf : d.wf = true)
    (hpk : AsarPacker.pack h dumps false d [] = .ok (ar, dg)) :
    AsarExtractor.openArchive
      (fun bs => if bs = dumps (FileTree.dir (AsarPacker.packEntries h false d [])) then
        some (FileTree.dir (AsarPacker.packEntries h false d [])).sorted else none) ar =
      .ok ((FileTree.dir (AsarPacker.packEntries h false d [])).sorted,
        roundup (16 + (dumps (FileTree.dir (AsarPacker.packEntries h false d []))).length) 4) := by
  have har := pack_ok_archive h dumps d ar dg hwf hpk
  simp only [packJson] at har
  have h1 : roundup (dumps (FileTree.dir (AsarPacker.packEntries h false d []))).length 4 + 8 <
      4294967296 := by
    by_contra hc
    simp [AsarPacker.pack, hc] at hpk
  have harr : ar = u32le 4 ++
      (u32le (roundup (dumps (FileTree.dir (AsarPacker.packEntries h false d []))).length 4 + 8) ++
      (u32le (roundup (dumps (FileTree.dir (AsarPacker.packEntries h false d []))).length 4 + 4) ++
      (u32le (dumps (FileTree.dir (AsarPacker.packEntries h false d []))).length ++
      (dumps (FileTree.dir (AsarPacker.packEntries h false d [])) ++
      (List.replicate (roundup (dumps (FileTree.dir (AsarPacker.packEntries h false d []))).length 4 -
        (dumps (FileTree.dir (AsarPacker.packEntries h false d []))).length) 0 ++
      (d.filesRel.map (fun e => e.2.1)).flatten))))) := by
    rw [har]
    simp only [List.append_assoc]
  rw [harr]
  refine openArchive_of_layout _
    (roundup (dumps (FileTree.dir (AsarPacker.packEntries h false d []))).length 4)
    (dumps (FileTree.dir (AsarPacker.packEntries h false d []))).length
    (dumps (FileTree.dir (AsarPacker.packEntries h false d []))) _ rfl h1 ?_ _ (by simp)
  have := roundup_four (dumps (FileTree.dir (AsarPacker.packEntries h false d []))).length
  omega

/-- Extracting the sorted header tree from the container that a
successful pack wrote reproduces, for every source file, its bytes and
executable bit at its `./`-joined relative path. -/
theorem roundTrip_extract_eval (h : List Nat → Name) (dumps : FileTree → List Nat) (d : FSDir)
    (ar : List Nat) (dg : Name) (hwf : d.wf = true)
    (hpk : AsarPacker.pack h dumps false d [] = .ok (ar, dg)) :
    ∃ out, AsarExtractor.extract (fun _ => none) false
        ((FileTree.dir (AsarPacker.packEntries h false d [])).sorted) ar
        (roundup (16 + (dumps (FileTree.dir (AsarPacker.packEntries h false d []))).length) 4)
        false = .ok out ∧
      ∀ p c x, (p, c, x) ∈ d.filesRel → (pathJoin dotName p, c, x) ∈ out := by
  have hperm0 := FileTree.walkChild_sorted_perm
    (FileTree.dir (AsarPacker.packEntries h false d [])) dotName false
  have hgood := packEntries_walk_good h false d dotName false
  have hgood' : ∀ e ∈ (Entries.ofList (List.insertionSort (fun a b => nameLe a.1 b.1 = true)
      (AsarPacker.packEntries h false d []).mapSorted)).walk dotName false,
      e.2.unpacked = false ∧ e.2.offset.isSome = true :=
    fun e he => hgood e (hperm0.subset he)
  have hext := Entries.extractDir_eq (fun _ => none) false ar
    (roundup (16 + (dumps (FileTree.dir (AsarPacker.packEntries h false d []))).length) 4)
    (Entries.ofList (List.insertionSort (fun a b => nameLe a.1 b.1 = true)
      (AsarPacker.packEntries h false d []).mapSorted)) dotName hgood'
  refine ⟨((Entries.ofList (List.insertionSort (fun a b => nameLe a.1 b.1 = true)
      (AsarPacker.packEntries h false d []).mapSorted)).walk dotName false).map
        (fun e => (e.1, (ar.drop (e.2.offset.getD 0 +
            roundup (16 + (dumps (FileTree.dir (AsarPacker.packEntries h false d []))).length)
              4)).take e.2.size, !false && e.2.executable)), ?_, ?_⟩
  · simp only [AsarExtractor.extract, FileTree.sorted, Bool.false_eq_true, if_false]
    exact hext
  · intro p c x hm
    have har := pack_ok_archive h dumps d ar dg hwf hpk
    simp only [packJson] at har
    have hpermM := hperm0.map (fun e : Name × FileInfo =>
      (e.1, (ar.drop (e.2.offset.getD 0 +
          roundup (16 + (dumps (FileTree.dir (AsarPacker.packEntries h false d []))).length) 4)).take
        e.2.size, !false && e.2.executable))
    have hs : ((AsarPacker.packEntries h false d []).walk dotName false).map stripEntry =
        ((annotate false dotName d.filesRel 0).1).map stripEntry :=
      (packEntries_walk_annotate h false d dotName false).trans
        (annotate_strip false dotName d.filesRel 0).symm
    have heq1 := map_strip_invariant (fun e : Name × FileInfo =>
        (e.1, (ar.drop (e.2.offset.getD 0 +
            roundup (16 + (dumps (FileTree.dir (AsarPacker.packEntries h false d []))).length) 4)).take
          e.2.size, !false && e.2.executable))
      (fun e => rfl) _ _ hs
    have hup16 := roundup_plus16 (dumps (FileTree.dir (AsarPacker.packEntries h false d []))).length
    have hup4 := roundup_four (dumps (FileTree.dir (AsarPacker.packEntries h false d []))).length
    have hdrop : ar.drop
        (roundup (16 + (dumps (FileTree.dir (AsarPacker.packEntries h false d []))).length) 4 + 0) =
        (d.filesRel.map (fun e => e.2.1)).flatten ++ [] := by
      rw [har, List.append_nil, Nat.add_zero, Nat.add_comm 16
        (dumps (FileTree.dir (AsarPacker.packEntries h false d []))).length]
      apply List.drop_left'
      simp only [List.length_append, u32le, List.length_cons, List.length_nil,
        List.length_replicate]
      omega
    have heq2 := map_readSeg_annotate ar
      (roundup (16 + (dumps (FileTree.dir (AsarPacker.packEntries h false d []))).length) 4)
      false dotName d.filesRel 0 ⟨[], hdrop⟩
    have hmm : (pathJoin dotName p, c, !false && x) ∈
        d.filesRel.map (fun e => (pathJoin dotName e.1, e.2.1, !false && e.2.2)) :=
      List.mem_map_of_mem _ hm
    have hfinal : (pathJoin dotName p, c, !false && x) ∈
        (((FileTree.dir (AsarPacker.packEntries h false d [])).sorted).walkChild dotName false).map
          (fun e : Name × FileInfo =>
            (e.1, (ar.drop (e.2.offset.getD 0 +
                roundup (16 + (dumps (FileTree.dir (AsarPacker.packEntries h false d []))).length) 4)).take
              e.2.size, !false && e.2.executable)) := by
      rw [hpermM.mem_iff]
      show _ ∈ ((AsarPacker.packEntries h false d []).walk dotName false).map _
      rw [heq1, heq2]
      exact hmm
    exact hfinal

/-- C6: packing a well-formed directory tree with an empty unpacked set
and then opening and extracting the container into a fresh destination
reproduces every source file byte-identically at its relative path and,
on a non-Windows platform, with the executable bit that was recorded for
it. -/
theorem pack_extract_roundtrip (h : List Nat → Name) (dumps : FileTree → List Nat)
    (d : FSDir) (ar : List Nat) (dg : Name) (hwf : d.wf = true)
    (hpk : AsarPacker.pack h dumps false d [] = .ok (ar, dg)) :
    ∃ out, roundTrip h dumps d = .ok out ∧
      ∀ p c x, (p, c, x) ∈ d.filesRel → (pathJoin dotName p, c, x) ∈ out := by
  obtain ⟨out, hex, hmem⟩ := roundTrip_extract_eval h dumps d ar dg hwf hpk
  refine ⟨out, ?_, hmem⟩
  have hopen := roundTrip_open_eval h dumps d ar dg hwf hpk
  simp only [roundTrip, hpk, hopen, hex]

/-- C6 (witness): the specification's concrete scenario — a 2-byte file
`a` and a 3-byte executable file `s/b` — packs and extracts back to both
files with their original bytes and executable bits. -/
theorem pack_extract_roundtrip_witness :
    ∃ out, roundTrip h0 dmp0 fsW = .ok out ∧
      ∀ p c x, (p, c, x) ∈ fsW.filesRel → (pathJoin dotName p, c, x) ∈ out :=
  pack_extract_roundtrip h0 dmp0 fsW arWit [] (by decide) (by decide)

/-- A natural number below `2^53` fits the binary64 significand whole:
no bits are in excess. -/
theorem excessBits_eq_zero (n : Nat) (h : n < 2 ^ 53) : excessBits n = 0 := by
  cases n with
  | zero => rfl
  | succ k => simp only [excessBits, excessBitsAux, if_pos h]

/-- Binary64 rounding is the identity on integers below `2^53`. -/
theorem roundSig_eq_of_lt (n : Nat) (h : n < 2 ^ 53) : roundSig n = n := by
  simp [roundSig, excessBits_eq_zero n h]

/-- C10: for every `val < 2^53`, `roundup(val, 4)` computed through
binary64 floating point as the source computes it returns the least
multiple of 4 greater than or equal to `val` (it is a multiple of 4, at
least `val`, below `val + 4`, and agrees with the exact integer model
`roundup`); and this exactness is not guaranteed at or above `2^53`: at
`val = 2^53 + 1` the conversion `float(val)` rounds to `2^53` (ties to
even), so the floating-point route returns `2^53` where the least
multiple of 4 greater than or equal to `val` is `2^53 + 4`. -/
theorem roundup_float_exact (val : Nat) (h : val < 2 ^ 53) :
    (roundupFloat val = roundup val 4 ∧ roundupFloat val % 4 = 0 ∧
      val ≤ roundupFloat val ∧ roundupFloat val < val + 4) ∧
    (roundupFloat (2 ^ 53 + 1) = 2 ^ 53 ∧ roundup (2 ^ 53 + 1) 4 = 2 ^ 53 + 4) := by
  have hs : roundSig val = val := roundSig_eq_of_lt val h
  have hq : roundupFloat val = ((val + 3) / 4) * 4 := by
    simp [roundupFloat, fdiv4Num, pyFloat, ceilQuarter, hs]
  refine ⟨⟨?_, ?_, ?_, ?_⟩, by decide, by decide⟩
  · rw [hq]; unfold roundup; omega
  · rw [hq]; omega
  · rw [hq]; omega
  · rw [hq]; omega

/-- C10 (witness): at `val = 5` the floating-point `roundup` gives 8, the
least multiple of 4 at least 5, agreeing with the exact integer model;
and the `2^53 + 1` inexactness facts hold concretely. -/
theorem roundup_float_exact_witness :
    (5 : Nat) < 2 ^ 53 ∧
    ((roundupFloat 5 = roundup 5 4 ∧ roundupFloat 5 % 4 = 0 ∧
        5 ≤ roundupFloat 5 ∧ roundupFloat 5 < 5 + 4) ∧
      (roundupFloat (2 ^ 53 + 1) = 2 ^ 53 ∧ roundup (2 ^ 53 + 1) 4 = 2 ^ 53 + 4)) :=
  ⟨by decide, roundup_float_exact 5 (by decide)⟩
